import Mathlib

/-
  Verification development for the rwa-build repository: constant-product
  AMM math, asset-id codec, RWA metadata memo codec, token-supply
  validation, XRP/drops conversion and the token-transfer orchestration.

  Modelling conventions.  The source manipulates JavaScript numbers; the
  model uses exact rationals (ℚ).  A JavaScript division whose result is
  non-finite (zero denominator) is rendered as an `Option` returning
  `none` where a claim depends on that behaviour.  JavaScript strings are
  Lean strings, manipulated through their character lists.
-/

namespace AmmHelpers

/-- Function `swapOut` of `src/mcp/rwa/amm_helpers.ts`.  It computes
`inputAmount = (assetOut * poolIn) / (poolOut - assetOut)` and then applies
the fee multiplier `1 + tradingFee / 100000`.  The float division is
non-finite exactly when the denominator `poolOut - assetOut` is zero,
which the model renders as `none`. -/
def swapOut (assetOut poolIn poolOut tradingFee : ℚ) : Option ℚ :=
  if poolOut - assetOut = 0 then none
  else some ((assetOut * poolIn) / (poolOut - assetOut) * (1 + tradingFee / 100000))

/-- Predicate for the result of a swap-out computation being a non-finite
or negative value: the modelled non-finite case, or a negative rational. -/
def isFailOut : Option ℚ → Bool
  | none => true
  | some v => decide (v < 0)

/-- Function `swapIn` of `src/mcp/rwa/amm_helpers.ts`: the trading fee is
applied to the input first (`assetIn * (1 - tradingFee/100000)`), then
`assetOut = assetInAfterFee * poolOut / (poolIn + assetInAfterFee)`. -/
def swapIn (assetIn poolIn poolOut tradingFee : ℚ) : ℚ :=
  let feeRate := tradingFee / 100000
  let assetInAfterFee := assetIn * (1 - feeRate)
  assetInAfterFee * poolOut / (poolIn + assetInAfterFee)

/-- Function `calculateLPTokensFromDeposit` of `src/mcp/rwa/amm_helpers.ts`.
The bootstrap branch calls the square root of the JavaScript standard
library, which is external to the repository; it is passed in as the
parameter `sqrtFn`. -/
def calculateLPTokensFromDeposit (sqrtFn : ℚ → ℚ)
    (depositAmount poolBalance totalLPTokens : ℚ)
    (isBalancedDeposit : Bool) (tradingFee : ℚ) : ℚ :=
  if totalLPTokens = 0 then
    sqrtFn depositAmount
  else
    let proportionalTokens := depositAmount / poolBalance * totalLPTokens
    if !isBalancedDeposit then
      let feeRate := tradingFee / 100000
      proportionalTokens * (1 - feeRate)
    else
      proportionalTokens

/-- Function `xrpToDrops` of `src/mcp/rwa/amm_helpers.ts`:
the string of `Math.floor(xrp * 1000000)`. -/
def xrpToDrops (xrp : ℚ) : String :=
  toString ⌊xrp * 1000000⌋

end AmmHelpers

/-- C1: for a pool with reserves x, y and fee f, after swapIn the implied
new reserves satisfy the constant-product inequality
`(x + amountIn) * (y - amountOut) >= x * y`, strictly when f > 0. -/
theorem C1_constant_product (x y a f : ℚ) (hx : 0 < x) (hy : 0 < y)
    (ha : 0 < a) (hf0 : 0 ≤ f) (hf1 : f ≤ 1000) :
    x * y ≤ (x + a) * (y - AmmHelpers.swapIn a x y f) ∧
      (0 < f → x * y < (x + a) * (y - AmmHelpers.swapIn a x y f)) := by
  have hr1 : f / 100000 ≤ 1 / 100 := by linarith
  have hr0 : 0 ≤ f / 100000 := by positivity
  have haF : 0 < a * (1 - f / 100000) := by nlinarith
  have hden : 0 < x + a * (1 - f / 100000) := by linarith
  have hswap : AmmHelpers.swapIn a x y f
      = a * (1 - f / 100000) * y / (x + a * (1 - f / 100000)) := rfl
  have hsub : y - AmmHelpers.swapIn a x y f
      = x * y / (x + a * (1 - f / 100000)) := by
    rw [hswap, eq_div_iff hden.ne', sub_mul, div_mul_cancel₀ _ hden.ne']
    ring
  constructor
  · rw [hsub, ← mul_div_assoc, le_div_iff₀ hden]
    have hnn : 0 ≤ x * y * a * (f / 100000) := by positivity
    nlinarith [hnn]
  · intro hf
    rw [hsub, ← mul_div_assoc, lt_div_iff₀ hden]
    have hpos : 0 < x * y * a * (f / 100000) := by positivity
    nlinarith [hpos]

/-- Witness for C1 at the concrete pool of the specification's swap
scenario: reserves (5000, 10000), input 100, fee 500. -/
theorem C1_constant_product_witness :
    (5000 : ℚ) * 10000
        ≤ ((5000 : ℚ) + 100) * (10000 - AmmHelpers.swapIn 100 5000 10000 500) ∧
      ((0 : ℚ) < 500 → (5000 : ℚ) * 10000
        < ((5000 : ℚ) + 100) * (10000 - AmmHelpers.swapIn 100 5000 10000 500)) :=
  C1_constant_product 5000 10000 100 500 (by norm_num) (by norm_num)
    (by norm_num) (by norm_num) (by norm_num)

/-- C2 counterexample: the claimed equivalence "swapOut fails exactly when
desiredOut >= poolOut" is false without a sign restriction on desiredOut:
at desiredOut = -1 with unit pool reserves and zero fee the result is
negative although desiredOut < poolOut. -/
theorem C2_swapout_boundary_counterexample :
    ¬ (AmmHelpers.isFailOut (AmmHelpers.swapOut (-1) 1 1 0) = true
        ↔ (1 : ℚ) ≤ -1) := by
  have h : AmmHelpers.swapOut (-1) 1 1 0 = some (-1 / 2) := by
    norm_num [AmmHelpers.swapOut]
  rw [h]
  simp only [AmmHelpers.isFailOut, decide_eq_true_eq]
  norm_num

/-- C2 amended: for nonnegative desiredOut, positive reserves and fee in
[0, 1000], swapOut returns a non-finite or negative value exactly when
desiredOut >= poolOut, and a finite positive value whenever
0 < desiredOut < poolOut. -/
theorem C2_swapout_boundary (d pIn pOut f : ℚ) (hin : 0 < pIn)
    (hout : 0 < pOut) (hf0 : 0 ≤ f) (hf1 : f ≤ 1000) (hd : 0 ≤ d) :
    (AmmHelpers.isFailOut (AmmHelpers.swapOut d pIn pOut f) = true ↔ pOut ≤ d) ∧
      (0 < d → d < pOut →
        ∃ v, AmmHelpers.swapOut d pIn pOut f = some v ∧ 0 < v) := by
  have hfr : (0 : ℚ) ≤ f / 100000 := by positivity
  have hfee : (0 : ℚ) < 1 + f / 100000 := by linarith
  rcases lt_trichotomy d pOut with hlt | heq | hgt
  · have hden : (0 : ℚ) < pOut - d := by linarith
    constructor
    · simp only [AmmHelpers.swapOut, if_neg hden.ne', AmmHelpers.isFailOut,
        decide_eq_true_eq]
      have hv : 0 ≤ d * pIn / (pOut - d) * (1 + f / 100000) :=
        mul_nonneg (div_nonneg (mul_nonneg hd hin.le) hden.le) hfee.le
      constructor
      · intro hneg; linarith
      · intro hle; linarith
    · intro hd0 _
      refine ⟨d * pIn / (pOut - d) * (1 + f / 100000), ?_, ?_⟩
      · simp [AmmHelpers.swapOut, if_neg hden.ne']
      · exact mul_pos (div_pos (mul_pos hd0 hin) hden) hfee
  · constructor
    · have hzero : pOut - d = 0 := by rw [heq]; ring
      simp [AmmHelpers.swapOut, if_pos hzero, AmmHelpers.isFailOut, heq]
    · intro _ hlt; exact absurd heq (by linarith)
  · have hden : pOut - d < 0 := by linarith
    constructor
    · simp only [AmmHelpers.swapOut, if_neg hden.ne, AmmHelpers.isFailOut,
        decide_eq_true_eq]
      have hv : d * pIn / (pOut - d) * (1 + f / 100000) < 0 :=
        mul_neg_of_neg_of_pos
          (div_neg_of_pos_of_neg (mul_pos (by linarith) hin) hden) hfee
      constructor
      · intro _; linarith
      · intro _; exact hv
    · intro _ hlt; exact absurd hlt (by linarith)

/-- Witness for C2 at the specification's accepted boundary test point
desiredOut = 0.99 * poolOut, with pool reserves (1, 1) and fee 500. -/
theorem C2_swapout_boundary_witness :
    (AmmHelpers.isFailOut (AmmHelpers.swapOut (99 / 100) 1 1 500) = true
        ↔ (1 : ℚ) ≤ 99 / 100) ∧
      ((0 : ℚ) < 99 / 100 → (99 / 100 : ℚ) < 1 →
        ∃ v, AmmHelpers.swapOut (99 / 100) 1 1 500 = some v ∧ 0 < v) :=
  C2_swapout_boundary (99 / 100) 1 1 500 (by norm_num) (by norm_num)
    (by norm_num) (by norm_num) (by norm_num)

/-- C3 counterexample: the swap-estimate scenario value is wrong.  The code
gives swapIn(100, 5000, 10000, 500) = 1990000/10199, about 195.117, which
differs from the claimed 198.4 by more than 1 — far beyond any rounding
tolerance. -/
theorem C3_swap_estimate_counterexample :
    1 < |AmmHelpers.swapIn 100 5000 10000 500 - 1984 / 10| := by
  have h : AmmHelpers.swapIn 100 5000 10000 500 = 1990000 / 10199 := by
    norm_num [AmmHelpers.swapIn]
  rw [h, abs_of_nonpos (by norm_num)]
  norm_num

/-- C3 amended: for the pool (tokenPool = 10000, xrpPool = 5000) with fee
500, an input of 100 XRP yields exactly 1990000/10199 tokens, which is
approximately 195.12 (within 0.01), not 198.4. -/
theorem C3_swap_estimate :
    AmmHelpers.swapIn 100 5000 10000 500 = 1990000 / 10199 ∧
      |AmmHelpers.swapIn 100 5000 10000 500 - 19512 / 100| ≤ 1 / 100 := by
  have h : AmmHelpers.swapIn 100 5000 10000 500 = 1990000 / 10199 := by
    norm_num [AmmHelpers.swapIn]
  refine ⟨h, ?_⟩
  rw [h, abs_of_nonpos (by norm_num)]
  norm_num

/-- C4: LP tokens from a deposit: the bootstrap branch returns the square
root of the deposit whenever totalLPTokens = 0, for every balanced flag
and every poolBalance; otherwise, for poolBalance > 0, the proportional
amount (depositAmount / poolBalance) * totalLPTokens, multiplied by
(1 - feeBps/100000) exactly when the deposit is not balanced. -/
theorem C4_lp_tokens (sqrtFn : ℚ → ℚ) (d p t f : ℚ) :
    (∀ b : Bool,
      AmmHelpers.calculateLPTokensFromDeposit sqrtFn d p 0 b f = sqrtFn d) ∧
      (t ≠ 0 → 0 < p →
        AmmHelpers.calculateLPTokensFromDeposit sqrtFn d p t true f
          = d / p * t) ∧
      (t ≠ 0 → 0 < p →
        AmmHelpers.calculateLPTokensFromDeposit sqrtFn d p t false f
          = d / p * t * (1 - f / 100000)) := by
  refine ⟨fun b => ?_, fun ht hp => ?_, fun ht hp => ?_⟩
  · cases b <;> simp [AmmHelpers.calculateLPTokensFromDeposit]
  · simp [AmmHelpers.calculateLPTokensFromDeposit, ht]
  · simp [AmmHelpers.calculateLPTokensFromDeposit, ht]

/-- Witness for C4 at deposit 9 into a pool of balance 3 holding 6 LP
tokens, fee 0, with the identity in place of the external square root;
the bootstrap case is exercised at both values of the balanced flag. -/
theorem C4_lp_tokens_witness :
    AmmHelpers.calculateLPTokensFromDeposit (fun q => q) 9 3 0 true 0 = 9 ∧
      AmmHelpers.calculateLPTokensFromDeposit (fun q => q) 9 3 0 false 0
        = 9 ∧
      AmmHelpers.calculateLPTokensFromDeposit (fun q => q) 9 3 6 true 0
        = 9 / 3 * 6 ∧
      AmmHelpers.calculateLPTokensFromDeposit (fun q => q) 9 3 6 false 0
        = 9 / 3 * 6 * (1 - 0 / 100000) :=
  ⟨(C4_lp_tokens (fun q => q) 9 3 6 0).1 true,
    (C4_lp_tokens (fun q => q) 9 3 6 0).1 false,
    (C4_lp_tokens (fun q => q) 9 3 6 0).2.1 (by norm_num) (by norm_num),
    (C4_lp_tokens (fun q => q) 9 3 6 0).2.2 (by norm_num) (by norm_num)⟩

namespace XrplHelpers

/-- Record for the result of parsing an asset id:
the object `{currency, issuer}` of `parseAssetId`. -/
structure AssetIdParts where
  currency : String
  issuer : String
deriving DecidableEq

/-- Helper for the JavaScript `split('.')`: accumulates the current segment
in reverse and emits a segment at each dot. -/
def splitDotAux : List Char → List Char → List (List Char)
  | [], cur => [cur.reverse]
  | c :: cs, cur =>
      if c = '.' then cur.reverse :: splitDotAux cs []
      else splitDotAux cs (c :: cur)

/-- Model of the JavaScript `assetId.split('.')` (single-character
separator, no limit): an empty string yields one empty segment, and a
separator at either end yields an empty segment there. -/
def jsSplitDot (s : String) : List String :=
  (splitDotAux s.data []).map String.mk

/-- Function `generateAssetId` of `src/utils/xrpl_helpers.ts`:
the template literal `"${currencyCode}.${issuerAddress}"`. -/
def generateAssetId (currencyCode issuerAddress : String) : String :=
  currencyCode ++ "." ++ issuerAddress

/-- Function `parseAssetId` of `src/utils/xrpl_helpers.ts`: split on dots;
if the number of parts is not exactly two return null, otherwise return
the first part as currency and the second as issuer. -/
def parseAssetId (assetId : String) : Option AssetIdParts :=
  match jsSplitDot assetId with
  | [c, i] => some ⟨c, i⟩
  | _ => none

/-- Character class `[1-9A-HJ-NP-Za-km-z]` of the XRPL address regex
(base-58 alphabet without 0, O, I, l). -/
def isBase58Char (c : Char) : Bool :=
  (decide ('1' ≤ c) && decide (c ≤ '9')) ||
  (decide ('A' ≤ c) && decide (c ≤ 'H')) ||
  (decide ('J' ≤ c) && decide (c ≤ 'N')) ||
  (decide ('P' ≤ c) && decide (c ≤ 'Z')) ||
  (decide ('a' ≤ c) && decide (c ≤ 'k')) ||
  (decide ('m' ≤ c) && decide (c ≤ 'z'))

/-- Function `isValidXRPLAddress` of `src/utils/xrpl_helpers.ts`: the
regular expression `^r[1-9A-HJ-NP-Za-km-z]{25,34}$`. -/
def isValidXRPLAddress (address : String) : Bool :=
  match address.data with
  | [] => false
  | c :: rest =>
      decide (c = 'r') && decide (25 ≤ rest.length) &&
      decide (rest.length ≤ 34) && rest.all isBase58Char

/-- The currency-code format of `src/constants.ts`
(`CURRENCY_CODE.ALLOWED_CHARS`): the regular expression `^[A-Z0-9]{3}$`. -/
def isCurrencyCodeChar (c : Char) : Bool :=
  (decide ('A' ≤ c) && decide (c ≤ 'Z')) ||
  (decide ('0' ≤ c) && decide (c ≤ '9'))

/-- String form of the three-character uppercase-alphanumeric currency
format. -/
def isValidCurrencyCode (s : String) : Bool :=
  decide (s.length = 3) && s.data.all isCurrencyCodeChar

/-- Decimal digits of a fractional part 0 ≤ q < 1, most significant first,
stopping when the expansion terminates (fuelled; JavaScript prints only
finitely many digits). -/
def fracDigits : Nat → ℚ → List Char
  | 0, _ => []
  | fuel + 1, q =>
      if q = 0 then []
      else Nat.digitChar (⌊q * 10⌋).toNat :: fracDigits fuel (q * 10 - ⌊q * 10⌋)

/-- Decimal rendering of a positive non-integer rational: integer part,
a dot, then the fractional digits. -/
def posDecimalString (q : ℚ) : String :=
  toString ⌊q⌋ ++ "." ++ String.mk (fracDigits 100 (q - (⌊q⌋ : ℚ)))

/-- Model of the JavaScript number-to-string conversion on exact
rationals: integer-valued numbers print with no decimal point, other
values print sign, integer part, dot and fractional digits (exact for the
terminating decimal expansions that arise here). -/
def jsNumToString (q : ℚ) : String :=
  if (⌊q⌋ : ℚ) = q then toString ⌊q⌋
  else if q < 0 then "-" ++ posDecimalString (-q)
  else posDecimalString q

/-- Function `xrpToDrops` of `src/utils/xrpl_helpers.ts`:
the string of `Number(xrp) * 1000000`, with no flooring. -/
def xrpToDrops (xrp : ℚ) : String :=
  jsNumToString (xrp * 1000000)

end XrplHelpers

namespace Validation

/-- Shape of the results of the validators in `src/utils/validation.ts`:
a valid flag and an optional error message. -/
structure ValidationResult where
  valid : Bool
  error : Option String

/-- Function `validateTokenSupply` of `src/utils/validation.ts`.  The
JavaScript test `!supply || supply <= 0 || !Number.isInteger(supply)` is
modelled on exact rationals: zero or nonpositive or non-integral
(denominator not 1). -/
def validateTokenSupply (supply value : ℚ) : ValidationResult :=
  if supply = 0 ∨ supply ≤ 0 ∨ ¬ supply.den = 1 then
    ⟨false, some ("Token supply must be a positive integer")⟩
  else if supply < 100 then
    ⟨false, some ("Minimum token supply is 100 tokens")⟩
  else if supply > 100000000 then
    ⟨false, some ("Token supply exceeds maximum limit of 100M tokens")⟩
  else if value / supply < 1 / 100 then
    ⟨false, some ("Price per token too low (minimum $0.01). Reduce token supply or increase asset value.")⟩
  else
    ⟨true, none⟩

end Validation

namespace SendRWAToken

/-- One classified holding as returned by the balance aggregation used by
the send tool (`agent.getRWATokenBalances().rwa_tokens`). -/
structure TokenBalance where
  currency : String
  issuer : String
  balance : ℚ

/-- The part of the asset metadata the send tool reads. -/
structure AssetInfo where
  totalValue : Option ℚ
  totalSupply : ℚ

/-- Typed rendering of the errors thrown by the send-tool handler before
any ledger submission. -/
inductive SendError where
  | tokenNotFound (tokenId : String)
  | insufficientBalance (available : ℚ) (currency : String) (requested : ℚ)
  | destinationNotFound (destination : String)

/-- The schema-validated input of the send tool. -/
structure SendInput where
  token_id : String
  destination : String
  amount : ℚ

/-- The payment transaction the handler submits on the success path. -/
structure Payment where
  destination : String
  currency : String
  issuer : String
  value : ℚ

/-- Currency component of `input.token_id.split('.')` destructuring. -/
def tokenCurrency (tokenId : String) : String :=
  ((XrplHelpers.jsSplitDot tokenId)[0]?).getD ""

/-- Issuer component of `input.token_id.split('.')` destructuring. -/
def tokenIssuer (tokenId : String) : String :=
  ((XrplHelpers.jsSplitDot tokenId)[1]?).getD ""

/-- The predicate of the `balances.rwa_tokens.find` call of the handler. -/
def matchesToken (tokenId : String) (t : TokenBalance) : Bool :=
  decide (t.currency = tokenCurrency tokenId) &&
  decide (t.issuer = tokenIssuer tokenId)

/-- Model of `SendRWATokenTool.handler` of
`src/mcp/rwa/send_rwa_token_tool.ts` up to ledger submission.  The ledger
round-trips are abstracted into their observed results: `assetInfo` is the
result of `getAssetInfo`, `balances` the classified holdings, and
`destinationExists` the destination account-info lookup.  The destination
trustline check of the source is advisory only (it never changes control
flow) and is omitted.  An `Except.error` is a thrown error before
submission; the `Except.ok` payment is what `submitAndWait` would
submit. -/
def handler (assetInfo : Option AssetInfo) (balances : List TokenBalance)
    (destinationExists : Bool) (input : SendInput) :
    Except SendError Payment :=
  match assetInfo with
  | none => .error (.tokenNotFound input.token_id)
  | some _ =>
      match balances.find? (matchesToken input.token_id) with
      | none => .error (.insufficientBalance 0 (tokenCurrency input.token_id)
          input.amount)
      | some t =>
          if t.balance < input.amount then
            .error (.insufficientBalance t.balance
              (tokenCurrency input.token_id) input.amount)
          else if !destinationExists then
            .error (.destinationNotFound input.destination)
          else
            .ok { destination := input.destination
                  currency := tokenCurrency input.token_id
                  issuer := tokenIssuer input.token_id
                  value := input.amount }

end SendRWAToken

namespace XrplHelpers

theorem splitDotAux_no_dot (l : List Char) (acc : List Char) (h : '.' ∉ l) :
    splitDotAux l acc = [acc.reverse ++ l] := by
  induction l generalizing acc with
  | nil => simp [splitDotAux]
  | cons c cs ih =>
      have hc : ¬ c = '.' := fun hh => h (by simp [hh])
      have hcs : '.' ∉ cs := fun hh => h (List.mem_cons_of_mem _ hh)
      simp [splitDotAux, hc, ih _ hcs]

theorem splitDotAux_split (l1 l2 : List Char) (acc : List Char)
    (h : '.' ∉ l1) :
    splitDotAux (l1 ++ '.' :: l2) acc
      = (acc.reverse ++ l1) :: splitDotAux l2 [] := by
  induction l1 generalizing acc with
  | nil => simp [splitDotAux]
  | cons c cs ih =>
      have hc : ¬ c = '.' := fun hh => h (by simp [hh])
      have hcs : '.' ∉ cs := fun hh => h (List.mem_cons_of_mem _ hh)
      simp [splitDotAux, hc, ih _ hcs]

theorem currency_no_dot (s : String) (h : isValidCurrencyCode s = true) :
    '.' ∉ s.data := by
  intro hmem
  simp only [isValidCurrencyCode, Bool.and_eq_true, decide_eq_true_eq,
    List.all_eq_true] at h
  exact absurd (h.2 '.' hmem) (by decide)

theorem address_no_dot (s : String) (h : isValidXRPLAddress s = true) :
    '.' ∉ s.data := by
  intro hmem
  unfold isValidXRPLAddress at h
  cases hd : s.data with
  | nil => rw [hd] at h; exact absurd h (by simp)
  | cons c rest =>
      rw [hd] at h
      simp only [Bool.and_eq_true, decide_eq_true_eq, List.all_eq_true] at h
      obtain ⟨⟨⟨hc, _⟩, _⟩, hall⟩ := h
      rw [hd] at hmem
      rcases List.mem_cons.mp hmem with h1 | h2
      · rw [hc] at h1; exact absurd h1 (by decide)
      · exact absurd (hall _ h2) (by decide)

theorem parse_generate (c i : String) (hc : '.' ∉ c.data)
    (hi : '.' ∉ i.data) :
    parseAssetId (generateAssetId c i) = some ⟨c, i⟩ := by
  have hdata : (generateAssetId c i).data = c.data ++ '.' :: i.data := by
    simp [generateAssetId, String.data_append]
  unfold parseAssetId jsSplitDot
  rw [hdata, splitDotAux_split _ _ _ hc, splitDotAux_no_dot _ _ hi]
  rfl

end XrplHelpers

/-- C6 counterexample: parseAssetId does not require the two dot-separated
parts to be non-empty: "BLD." parses to currency "BLD" with empty issuer,
and ".rXYZ" to empty currency with issuer "rXYZ", instead of returning
null as claimed. -/
theorem C6_parse_assetid_counterexample :
    XrplHelpers.parseAssetId ("BLD.") = some ⟨"BLD", ""⟩ ∧
      XrplHelpers.parseAssetId (".rXYZ") = some ⟨"", "rXYZ"⟩ := by
  constructor <;> rfl

/-- C6 amended: parseAssetId returns null exactly when the dot-split of
the input has a number of parts other than two; the two parts are not
checked for emptiness. -/
theorem C6_parse_assetid (s : String) :
    XrplHelpers.parseAssetId s = none
      ↔ (XrplHelpers.jsSplitDot s).length ≠ 2 := by
  cases h : XrplHelpers.jsSplitDot s with
  | nil => simp [XrplHelpers.parseAssetId, h]
  | cons a rest =>
      cases rest with
      | nil => simp [XrplHelpers.parseAssetId, h]
      | cons b rest2 =>
          cases rest2 with
          | nil => simp [XrplHelpers.parseAssetId, h]
          | cons c rest3 => simp [XrplHelpers.parseAssetId, h]

/-- C7: for every currency in the three-character uppercase-alphanumeric
format and every issuer in the XRPL address format, parsing the generated
asset id returns exactly that currency and issuer; concretely,
generateAssetId("BLD", "rN7n7otQDd6FczFgLdSqtcsAUxDkw6fzRH") is the dotted
string, parseAssetId recovers the pair from it, and parseAssetId("BLD")
returns null. -/
theorem C7_assetid_roundtrip :
    (∀ c i : String, XrplHelpers.isValidCurrencyCode c = true →
        XrplHelpers.isValidXRPLAddress i = true →
        XrplHelpers.parseAssetId (XrplHelpers.generateAssetId c i)
          = some ⟨c, i⟩) ∧
      XrplHelpers.generateAssetId ("BLD") ("rN7n7otQDd6FczFgLdSqtcsAUxDkw6fzRH")
          = "BLD.rN7n7otQDd6FczFgLdSqtcsAUxDkw6fzRH" ∧
      XrplHelpers.parseAssetId ("BLD.rN7n7otQDd6FczFgLdSqtcsAUxDkw6fzRH")
          = some ⟨"BLD", "rN7n7otQDd6FczFgLdSqtcsAUxDkw6fzRH"⟩ ∧
      XrplHelpers.parseAssetId ("BLD") = none := by
  refine ⟨?_, rfl, rfl, rfl⟩
  intro c i hc hi
  exact XrplHelpers.parse_generate c i (XrplHelpers.currency_no_dot c hc)
    (XrplHelpers.address_no_dot i hi)

/-- Witness for C7 at the concrete pair of the specification's scenario 5. -/
theorem C7_assetid_roundtrip_witness :
    XrplHelpers.parseAssetId
        (XrplHelpers.generateAssetId ("BLD")
          ("rN7n7otQDd6FczFgLdSqtcsAUxDkw6fzRH"))
      = some ⟨"BLD", "rN7n7otQDd6FczFgLdSqtcsAUxDkw6fzRH"⟩ :=
  C7_assetid_roundtrip.1 "BLD" "rN7n7otQDd6FczFgLdSqtcsAUxDkw6fzRH"
    (by decide) (by decide)

/-- C8: every pair accepted by validateTokenSupply satisfies the
price-per-token floor value/supply >= 0.01, with the supply an integer in
[100, 100000000]. -/
theorem C8_price_floor (supply value : ℚ)
    (h : (Validation.validateTokenSupply supply value).valid = true) :
    1 / 100 ≤ value / supply ∧ supply.den = 1 ∧
      100 ≤ supply ∧ supply ≤ 100000000 := by
  unfold Validation.validateTokenSupply at h
  split_ifs at h with h1 h2 h3 h4
  any_goals simp at h
  push_neg at h1
  exact ⟨not_lt.mp h4, h1.2.2, not_lt.mp h2, not_lt.mp h3⟩

/-- Witness for C8 at supply 1000, value 100000 (price 100 per token). -/
theorem C8_price_floor_witness :
    (1 : ℚ) / 100 ≤ (100000 : ℚ) / 1000 ∧ (1000 : ℚ).den = 1 ∧
      (100 : ℚ) ≤ 1000 ∧ (1000 : ℚ) ≤ 100000000 :=
  C8_price_floor 1000 100000 (by norm_num [Validation.validateTokenSupply])

/-- C9: whenever the token resolves but the sender's classified balance
for it is below the requested amount, the send-tool handler fails with the
insufficient-balance error reporting available and requested amounts, and
never reaches the ledger-submission step. -/
theorem C9_insufficient_balance (info : SendRWAToken.AssetInfo)
    (balances : List SendRWAToken.TokenBalance) (destinationExists : Bool)
    (input : SendRWAToken.SendInput) (t : SendRWAToken.TokenBalance)
    (hfind : balances.find? (SendRWAToken.matchesToken input.token_id)
      = some t)
    (hlt : t.balance < input.amount) :
    SendRWAToken.handler (some info) balances destinationExists input
        = .error (.insufficientBalance t.balance
            (SendRWAToken.tokenCurrency input.token_id) input.amount) ∧
      ∀ p, SendRWAToken.handler (some info) balances destinationExists input
        ≠ .ok p := by
  have hrun : SendRWAToken.handler (some info) balances destinationExists input
      = .error (.insufficientBalance t.balance
          (SendRWAToken.tokenCurrency input.token_id) input.amount) := by
    unfold SendRWAToken.handler
    rw [hfind]
    simp [hlt]
  exact ⟨hrun, fun p hp => by rw [hrun] at hp; exact Except.noConfusion hp⟩

/-- Witness for C9 at the specification's scenario 4: a sender holding 50
tokens requesting a transfer of 100. -/
theorem C9_insufficient_balance_witness :
    SendRWAToken.handler (some ⟨some 1000000, 10000⟩)
        [⟨"PAT", "rHJZf5qYxwH2Fnms1Uwmi61VfHqoTALgXw", 50⟩] true
        ⟨"PAT.rHJZf5qYxwH2Fnms1Uwmi61VfHqoTALgXw",
          "rN7n7otQDd6FczFgLdSqtcsAUxDkw6fzRH", 100⟩
        = .error (.insufficientBalance 50
            (SendRWAToken.tokenCurrency
              ("PAT.rHJZf5qYxwH2Fnms1Uwmi61VfHqoTALgXw")) 100) ∧
      ∀ p, SendRWAToken.handler (some ⟨some 1000000, 10000⟩)
        [⟨"PAT", "rHJZf5qYxwH2Fnms1Uwmi61VfHqoTALgXw", 50⟩] true
        ⟨"PAT.rHJZf5qYxwH2Fnms1Uwmi61VfHqoTALgXw",
          "rN7n7otQDd6FczFgLdSqtcsAUxDkw6fzRH", 100⟩ ≠ .ok p :=
  C9_insufficient_balance ⟨some 1000000, 10000⟩
    [⟨"PAT", "rHJZf5qYxwH2Fnms1Uwmi61VfHqoTALgXw", 50⟩] true
    ⟨"PAT.rHJZf5qYxwH2Fnms1Uwmi61VfHqoTALgXw",
      "rN7n7otQDd6FczFgLdSqtcsAUxDkw6fzRH", 100⟩
    ⟨"PAT", "rHJZf5qYxwH2Fnms1Uwmi61VfHqoTALgXw", 50⟩
    (by rfl) (by norm_num)

namespace XrplHelpers

theorem fracDigits_zero (n : Nat) : fracDigits n 0 = [] := by
  cases n <;> simp [fracDigits]

theorem fracDigits_succ (n : Nat) (q : ℚ) (hq : ¬ q = 0) :
    fracDigits (n + 1) q
      = Nat.digitChar (⌊q * 10⌋).toNat :: fracDigits n (q * 10 - ⌊q * 10⌋) := by
  simp only [fracDigits, if_neg hq]

end XrplHelpers

/-- C10: the two XRP-to-drops embeddings — flooring in the AMM helpers,
plain multiplication in the XRPL helpers — agree on every nonnegative
whole-drop amount, where both print the integer x * 1000000; they are
distinct, disagreeing at the fractional-drop amount x = 3/2000000. -/
theorem C10_xrp_to_drops :
    (∀ x : ℚ, 0 ≤ x → (x * 1000000).den = 1 →
        AmmHelpers.xrpToDrops x = XrplHelpers.xrpToDrops x ∧
          AmmHelpers.xrpToDrops x = toString (x * 1000000).num) ∧
      AmmHelpers.xrpToDrops (3 / 2000000)
        ≠ XrplHelpers.xrpToDrops (3 / 2000000) := by
  constructor
  · intro x _ hden
    have hq : (((x * 1000000).num : ℤ) : ℚ) = x * 1000000 :=
      (Rat.den_eq_one_iff _).mp hden
    have hfl : ⌊x * 1000000⌋ = (x * 1000000).num := by
      conv_lhs => rw [← hq]
      exact Int.floor_intCast _
    constructor
    · unfold AmmHelpers.xrpToDrops XrplHelpers.xrpToDrops
        XrplHelpers.jsNumToString
      rw [if_pos (by rw [hfl]; exact hq)]
    · unfold AmmHelpers.xrpToDrops
      rw [hfl]
  · have e1 : (3 / 2000000 * 1000000 : ℚ) = 3 / 2 := by norm_num
    have efl : ⌊(3 / 2 : ℚ)⌋ = 1 := by
      rw [Int.floor_eq_iff]
      constructor <;> norm_num
    have hamm : AmmHelpers.xrpToDrops (3 / 2000000) = "1" := by
      unfold AmmHelpers.xrpToDrops
      rw [e1, efl]
      decide
    have hutil : XrplHelpers.xrpToDrops (3 / 2000000) = "1.5" := by
      unfold XrplHelpers.xrpToDrops
      rw [e1]
      unfold XrplHelpers.jsNumToString
      have h1 : ¬ ((⌊(3 / 2 : ℚ)⌋ : ℚ) = 3 / 2) := by rw [efl]; norm_num
      have h2 : ¬ ((3 / 2 : ℚ) < 0) := by norm_num
      rw [if_neg h1, if_neg h2]
      unfold XrplHelpers.posDecimalString
      rw [efl]
      have efr : (3 / 2 : ℚ) - ((1 : ℤ) : ℚ) = 1 / 2 := by norm_num
      rw [efr]
      have h100 : (100 : Nat) = 99 + 1 := rfl
      rw [h100,
        XrplHelpers.fracDigits_succ 99 (1 / 2) (by norm_num)]
      have e5 : (1 / 2 : ℚ) * 10 = 5 := by norm_num
      rw [e5, Int.floor_ofNat]
      have ez : (5 : ℚ) - (((5 : ℕ) : ℤ) : ℚ) = 0 := by push_cast; ring
      rw [ez, XrplHelpers.fracDigits_zero]
      decide
    rw [hamm, hutil]
    decide

/-- Witness for C10 at the whole-drop amount x = 2 XRP. -/
theorem C10_xrp_to_drops_witness :
    AmmHelpers.xrpToDrops 2 = XrplHelpers.xrpToDrops 2 ∧
      AmmHelpers.xrpToDrops 2 = toString ((2 : ℚ) * 1000000).num :=
  C10_xrp_to_drops.1 2 (by norm_num)
    (by rw [show (2 : ℚ) * 1000000 = 2000000 by norm_num]
        exact Rat.den_ofNat 2000000)

namespace Js

/-
  Model of the JavaScript runtime functions the memo codec of
  `src/utils/xrpl_helpers.ts` relies on: JSON.stringify and JSON.parse on
  a JSON value type (numbers restricted to integers), and the UTF-8 hex
  transport codec of the xrpl library (convertStringToHex and
  convertHexToString).
-/

theorem char_eq_iff {c d : Char} : c = d ↔ c.toNat = d.toNat := by
  constructor
  · intro h; rw [h]
  · intro h
    have hv : c.val = d.val := UInt32.ext h
    cases c; cases d
    simp_all

theorem char_le_iff {c d : Char} : c ≤ d ↔ c.toNat ≤ d.toNat :=
  ⟨fun h => h, fun h => h⟩

theorem toNat_ofNat_valid (n : Nat) (h : n < 55296) :
    (Char.ofNat n).toNat = n := by
  have hv : n.isValidChar := Or.inl h
  simp [Char.ofNat, hv]
  rfl

/-- Decimal digit character for a value below ten. -/
def digitChar (d : Nat) : Char := Char.ofNat (48 + d)

theorem toNat_digitChar (d : Nat) (h : d < 10) :
    (digitChar d).toNat = 48 + d :=
  toNat_ofNat_valid (48 + d) (by omega)

/-- Digit test, the character class `[0-9]`. -/
def isDigitCh (c : Char) : Bool :=
  decide ('0' ≤ c) && decide (c ≤ '9')

theorem isDigitCh_iff (c : Char) :
    isDigitCh c = true ↔ 48 ≤ c.toNat ∧ c.toNat ≤ 57 := by
  simp only [isDigitCh, Bool.and_eq_true, decide_eq_true_eq]
  constructor
  · intro ⟨h1, h2⟩
    exact ⟨char_le_iff.mp h1, char_le_iff.mp h2⟩
  · intro ⟨h1, h2⟩
    exact ⟨char_le_iff.mpr h1, char_le_iff.mpr h2⟩

theorem isDigitCh_digitChar (d : Nat) (h : d < 10) :
    isDigitCh (digitChar d) = true := by
  rw [isDigitCh_iff, toNat_digitChar d h]
  omega

/-- Decimal digits of a natural number, most significant first. -/
def natToChars (n : Nat) : List Char :=
  if h : n < 10 then [digitChar n]
  else natToChars (n / 10) ++ [digitChar (n % 10)]
termination_by n
decreasing_by omega

/-- Digits of the JavaScript rendering of an integer: a minus sign for
negative values, then the decimal digits. -/
def intToChars (n : Int) : List Char :=
  if n < 0 then '-' :: natToChars n.natAbs else natToChars n.toNat

theorem natToChars_ne_nil (n : Nat) : natToChars n ≠ [] := by
  rw [natToChars]
  split <;> simp

theorem natToChars_all_digits (n : Nat) :
    ∀ c ∈ natToChars n, isDigitCh c = true := by
  induction n using Nat.strong_induction_on with
  | _ n ih =>
      rw [natToChars]
      split
      · next h =>
          intro c hc
          simp at hc
          rw [hc]
          exact isDigitCh_digitChar n h
      · next h =>
          intro c hc
          rw [List.mem_append] at hc
          rcases hc with hc | hc
          · exact ih (n / 10) (by omega) c hc
          · simp at hc
            rw [hc]
            exact isDigitCh_digitChar (n % 10) (by omega)

theorem natToChars_head (n : Nat) :
    ∃ d ds, natToChars n = d :: ds ∧ isDigitCh d = true := by
  cases h : natToChars n with
  | nil => exact absurd h (natToChars_ne_nil n)
  | cons d ds =>
      refine ⟨d, ds, rfl, ?_⟩
      exact natToChars_all_digits n d (by rw [h]; simp)

/-- A JavaScript number in the range where ToString prints positional
decimal notation: the value is mant / 10 ^ scale, in lowest decimal terms,
so a whole number has scale 0 and a fraction has no trailing zero digit. -/
structure JsNum where
  mant : Int
  scale : Nat
  norm : scale = 0 ∨ mant.natAbs % 10 ≠ 0

theorem jsNum_ext (a b : JsNum) (hm : a.mant = b.mant)
    (hk : a.scale = b.scale) : a = b := by
  cases a
  cases b
  cases hm
  cases hk
  rfl

/-- Strip trailing zero fraction digits: the canonical decimal form of a
parsed number value m / 10 ^ k.  (JSON.parse returns a number value, so a
denormal text such as 6.50 denotes the same value as 6.5.) -/
def normNum : Nat → Nat → Nat × Nat
  | m, 0 => (m, 0)
  | m, k + 1 => if m % 10 = 0 then normNum (m / 10) k else (m, k + 1)

theorem normNum_zero (m : Nat) : normNum m 0 = (m, 0) := rfl

theorem normNum_succ (m k : Nat) :
    normNum m (k + 1)
      = if m % 10 = 0 then normNum (m / 10) k else (m, k + 1) := rfl

theorem normNum_norm (m k : Nat) :
    (normNum m k).2 = 0 ∨ (normNum m k).1 % 10 ≠ 0 := by
  induction k generalizing m with
  | zero => exact Or.inl rfl
  | succ k ih =>
      rw [normNum_succ]
      split
      · exact ih (m / 10)
      · next h => exact Or.inr h

theorem normNum_eq_self (m k : Nat) (h : m % 10 ≠ 0) :
    normNum m k = (m, k) := by
  cases k with
  | zero => rfl
  | succ k => rw [normNum_succ, if_neg h]

/-- Signed canonical number value from a parsed sign, decimal mantissa and
scale. -/
def mkNum (neg : Bool) (m k : Nat) : JsNum where
  mant := if neg then -(((normNum m k).1 : Int)) else ((normNum m k).1 : Int)
  scale := (normNum m k).2
  norm := by
    rcases normNum_norm m k with h | h
    · exact Or.inl h
    · refine Or.inr ?_
      cases neg <;> simpa using h

/-- Zero-pad a digit string to more than k places, so that k fraction
digits can be split off and at least one integer digit remains. -/
def padDigits (ds : List Char) (k : Nat) : List Char :=
  List.replicate (k + 1 - ds.length) '0' ++ ds

/-- Insert the decimal point before the last k digits of the padded digit
string: the positional rendering of the fraction digits / 10 ^ k. -/
def decSplit (ds : List Char) (k : Nat) : List Char :=
  List.take ((padDigits ds k).length - k) (padDigits ds k)
    ++ '.' :: List.drop ((padDigits ds k).length - k) (padDigits ds k)

/-- Decimal rendering of a JavaScript number, as ToString prints it in the
positional range: the integer digits for a whole number; otherwise the
sign, the integer digits, the decimal point and the fraction digits. -/
def numToChars (n : JsNum) : List Char :=
  if n.scale = 0 then intToChars n.mant
  else
    (if n.mant < 0 then ['-'] else [])
      ++ decSplit (natToChars n.mant.natAbs) n.scale

mutual

/-- JSON values: the universe of JSON-representable metadata in the model,
with numbers the JavaScript numbers of the positional ToString range. -/
inductive Json where
  | null : Json
  | bool (b : Bool) : Json
  | num (n : JsNum) : Json
  | str (s : String) : Json
  | arr (elems : JsonList) : Json
  | obj (members : JsonObj) : Json

/-- The element list of a JSON array. -/
inductive JsonList where
  | nil : JsonList
  | cons (hd : Json) (tl : JsonList) : JsonList

/-- The member list of a JSON object, in textual order; a later binding of
the same key shadows an earlier one, as in JavaScript. -/
inductive JsonObj where
  | nil : JsonObj
  | cons (key : String) (val : Json) (tl : JsonObj) : JsonObj

end

/-- Lower-case hexadecimal digit character, as emitted by the control
character escapes of JSON.stringify. -/
def hexDigitCharL (d : Nat) : Char :=
  if d < 10 then digitChar d else Char.ofNat (87 + d)

/-- The string escaping of JSON.stringify: quote and backslash escapes,
short escapes for the common control characters, unicode escapes for the
remaining control characters, everything else verbatim. -/
def escapeChar (c : Char) : List Char :=
  if c = '"' then ['\\', '"']
  else if c = '\\' then ['\\', '\\']
  else if c = '\x08' then ['\\', 'b']
  else if c = '\x0c' then ['\\', 'f']
  else if c = '\n' then ['\\', 'n']
  else if c = '\r' then ['\\', 'r']
  else if c = '\t' then ['\\', 't']
  else if c.toNat < 32 then
    ['\\', 'u', '0', '0', hexDigitCharL (c.toNat / 16), hexDigitCharL (c.toNat % 16)]
  else [c]

/-- Escape every character of a string body. -/
def escChars : List Char → List Char
  | [] => []
  | c :: cs => escapeChar c ++ escChars cs

/-- A JSON string literal: quote, escaped body, quote. -/
def printString (s : String) : List Char :=
  '"' :: (escChars s.data ++ ['"'])

/-- Characters of the JSON literal null. -/
def nullChars : List Char := ['n', 'u', 'l', 'l']

/-- Characters of the JSON literal true. -/
def trueChars : List Char := ['t', 'r', 'u', 'e']

/-- Characters of the JSON literal false. -/
def falseChars : List Char := ['f', 'a', 'l', 's', 'e']

mutual

/-- Model of JSON.stringify (compact form, no whitespace). -/
def printJson : Json → List Char
  | .null => nullChars
  | .bool true => trueChars
  | .bool false => falseChars
  | .num n => numToChars n
  | .str s => printString s
  | .arr l => '[' :: (printList l ++ [']'])
  | .obj ms => '{' :: (printMembers ms ++ ['}'])

/-- Array elements, comma separated. -/
def printList : JsonList → List Char
  | .nil => []
  | .cons x xs => printJson x ++ printListSep xs

/-- Continuation of an array after its first element. -/
def printListSep : JsonList → List Char
  | .nil => []
  | .cons x xs => ',' :: (printJson x ++ printListSep xs)

/-- Object members, comma separated, each a string key, a colon and a
value. -/
def printMembers : JsonObj → List Char
  | .nil => []
  | .cons k v ms => printString k ++ ':' :: (printJson v ++ printMembersSep ms)

/-- Continuation of an object after its first member. -/
def printMembersSep : JsonObj → List Char
  | .nil => []
  | .cons k v ms =>
      ',' :: (printString k ++ ':' :: (printJson v ++ printMembersSep ms))

end

/-- JSON whitespace. -/
def isWsCh (c : Char) : Bool :=
  c = ' ' || c = '\t' || c = '\n' || c = '\r'

/-- Drop leading JSON whitespace. -/
def skipWs : List Char → List Char
  | [] => []
  | c :: cs => if isWsCh c then skipWs cs else c :: cs

/-- Match an expected sequence of characters, returning the remainder. -/
def expectChars : List Char → List Char → Option (List Char)
  | [], l => some l
  | _ :: _, [] => none
  | p :: ps, c :: cs => if c = p then expectChars ps cs else none

/-- Split off a maximal run of decimal digits. -/
def takeDigits : List Char → List Char × List Char
  | [] => ([], [])
  | c :: cs =>
      if isDigitCh c then
        let p := takeDigits cs
        (c :: p.1, p.2)
      else ([], c :: cs)

/-- Value of a run of decimal digits, with an accumulator. -/
def digitsVal (acc : Nat) : List Char → Nat
  | [] => acc
  | c :: cs => digitsVal (acc * 10 + (c.toNat - 48)) cs

/-- Parse a nonempty run of decimal digits. -/
def parseNat (l : List Char) : Option (Nat × List Char) :=
  match takeDigits l with
  | ([], _) => none
  | (ds, r) => some (digitsVal 0 ds, r)

/-- Parse the optional fraction of a JSON number after its integer part:
a decimal point must be followed by at least one digit; the result is the
decimal mantissa and scale of the magnitude so far. -/
def parseFrac (ip : Nat) : List Char → Option ((Nat × Nat) × List Char)
  | [] => some ((ip, 0), [])
  | c :: cs =>
      if c = '.' then
        match takeDigits cs with
        | ([], _) => none
        | (ds, r) =>
            some ((ip * 10 ^ ds.length + digitsVal 0 ds, ds.length), r)
      else some ((ip, 0), c :: cs)

/-- Apply a parsed exponent to a decimal magnitude. -/
def applyExp (m k : Nat) (eneg : Bool) (e : Nat) : Nat × Nat :=
  if eneg then (m, k + e) else (m * 10 ^ e, k)

/-- Parse the sign and digits after an exponent marker; at least one digit
is required. -/
def parseExpTail (m k : Nat) : List Char → Option ((Nat × Nat) × List Char)
  | [] => none
  | s :: cs =>
      if s = '+' then (parseNat cs).map fun p => (applyExp m k false p.1, p.2)
      else if s = '-' then (parseNat cs).map fun p => (applyExp m k true p.1, p.2)
      else (parseNat (s :: cs)).map fun p => (applyExp m k false p.1, p.2)

/-- Parse the optional exponent of a JSON number: the marker e or E, then
an optional sign and digits. -/
def parseExp (m k : Nat) : List Char → Option ((Nat × Nat) × List Char)
  | [] => some ((m, k), [])
  | c :: cs =>
      if c = 'e' then parseExpTail m k cs
      else if c = 'E' then parseExpTail m k cs
      else some ((m, k), c :: cs)

/-- Parse the magnitude of a JSON number: integer digits, an optional
fraction and an optional exponent; the sign was read by the caller and the
value is returned in canonical decimal form. -/
def parseNumAbs (neg : Bool) (l : List Char) : Option (JsNum × List Char) :=
  match parseNat l with
  | none => none
  | some (ip, r1) =>
      match parseFrac ip r1 with
      | none => none
      | some (mk1, r2) =>
          match parseExp mk1.1 mk1.2 r2 with
          | none => none
          | some (mk2, r3) => some (mkNum neg mk2.1 mk2.2, r3)

/-- Parse a JSON number, the number grammar of JSON.parse: an optional
minus sign, integer digits, an optional fraction and an optional
exponent. -/
def parseNumber : List Char → Option (JsNum × List Char)
  | [] => none
  | c :: cs =>
      if c = '-' then parseNumAbs true cs
      else parseNumAbs false (c :: cs)

/-- Whether a list starts with a character that would extend a preceding
number: a digit, a decimal point or an exponent marker. -/
def headNumCont : List Char → Bool
  | [] => false
  | c :: _ => isDigitCh c || c = '.' || c = 'e' || c = 'E'

/-- Value of a hexadecimal digit character, either case. -/
def hexCharVal (c : Char) : Option Nat :=
  if isDigitCh c then some (c.toNat - 48)
  else if decide ('A' ≤ c) && decide (c ≤ 'F') then some (c.toNat - 55)
  else if decide ('a' ≤ c) && decide (c ≤ 'f') then some (c.toNat - 87)
  else none

/-- A character from a scalar value, when valid. -/
def mkCharOpt (n : Nat) : Option Char :=
  if h : n.isValidChar then some (Char.ofNat n) else none

/-- Parse the body of a JSON string after its opening quote, handling the
escape sequences; returns the characters of the string and the remainder
after the closing quote. -/
def parseStringBody : List Char → Option (List Char × List Char)
  | [] => none
  | c :: cs =>
      if c = '"' then some ([], cs)
      else if c = '\\' then
        match cs with
        | [] => none
        | e :: cs2 =>
            if e = '"' then
              (parseStringBody cs2).map fun p => ('"' :: p.1, p.2)
            else if e = '\\' then
              (parseStringBody cs2).map fun p => ('\\' :: p.1, p.2)
            else if e = '/' then
              (parseStringBody cs2).map fun p => ('/' :: p.1, p.2)
            else if e = 'b' then
              (parseStringBody cs2).map fun p => ('\x08' :: p.1, p.2)
            else if e = 'f' then
              (parseStringBody cs2).map fun p => ('\x0c' :: p.1, p.2)
            else if e = 'n' then
              (parseStringBody cs2).map fun p => ('\n' :: p.1, p.2)
            else if e = 'r' then
              (parseStringBody cs2).map fun p => ('\r' :: p.1, p.2)
            else if e = 't' then
              (parseStringBody cs2).map fun p => ('\t' :: p.1, p.2)
            else if e = 'u' then
              match cs2 with
              | h1 :: h2 :: h3 :: h4 :: cs3 =>
                  match hexCharVal h1, hexCharVal h2, hexCharVal h3, hexCharVal h4 with
                  | some a, some b, some c2, some d =>
                      (mkCharOpt (a * 4096 + b * 256 + c2 * 16 + d)).bind fun ch =>
                        (parseStringBody cs3).map fun p => (ch :: p.1, p.2)
                  | _, _, _, _ => none
              | _ => none
            else none
      else (parseStringBody cs).map fun p => (c :: p.1, p.2)

mutual

/-- Model of JSON.parse, value level: recursive descent with a fuel
parameter bounding the nesting explored.  Each parse function skips
leading whitespace and hands the input to its token-level worker. -/
def parseValue : Nat → List Char → Option (Json × List Char)
  | 0, _ => none
  | fuel + 1, l => parseValueTok fuel (skipWs l)
termination_by fuel l => (fuel, 0)


/-- Value dispatch on the first significant character. -/
def parseValueTok : Nat → List Char → Option (Json × List Char)
  | _, [] => none
  | fuel, c :: cs =>
      if c = 'n' then
        (expectChars ['u', 'l', 'l'] cs).map fun r => (Json.null, r)
      else if c = 't' then
        (expectChars ['r', 'u', 'e'] cs).map fun r => (Json.bool true, r)
      else if c = 'f' then
        (expectChars ['a', 'l', 's', 'e'] cs).map fun r => (Json.bool false, r)
      else if c = '"' then
        (parseStringBody cs).map fun p => (Json.str (String.mk p.1), p.2)
      else if c = '[' then parseArrayItems fuel cs
      else if c = '{' then parseMembers fuel cs
      else (parseNumber (c :: cs)).map fun p => (Json.num p.1, p.2)
termination_by fuel l => (fuel, 2)


/-- Array contents after the opening bracket. -/
def parseArrayItems : Nat → List Char → Option (Json × List Char)
  | 0, _ => none
  | fuel + 1, l => parseItemsTok fuel (skipWs l)
termination_by fuel l => (fuel, 1)


/-- Array contents dispatch: a closing bracket, or a first element and the
continuation. -/
def parseItemsTok : Nat → List Char → Option (Json × List Char)
  | _, [] => none
  | fuel, c :: cs =>
      if c = ']' then some (Json.arr JsonList.nil, cs)
      else
        match parseValue fuel (c :: cs) with
        | none => none
        | some (v, r) =>
            match parseArrayRest fuel r with
            | none => none
            | some (vs, r2) => some (Json.arr (JsonList.cons v vs), r2)
termination_by fuel l => (fuel, 2)


/-- Array continuation: a comma and another element, or the closing
bracket. -/
def parseArrayRest : Nat → List Char → Option (JsonList × List Char)
  | 0, _ => none
  | fuel + 1, l => parseRestTok fuel (skipWs l)
termination_by fuel l => (fuel, 1)


/-- Array continuation dispatch. -/
def parseRestTok : Nat → List Char → Option (JsonList × List Char)
  | _, [] => none
  | fuel, c :: cs =>
      if c = ']' then some (JsonList.nil, cs)
      else if c = ',' then
        match parseValue fuel cs with
        | none => none
        | some (v, r) =>
            match parseArrayRest fuel r with
            | none => none
            | some (vs, r2) => some (JsonList.cons v vs, r2)
      else none
termination_by fuel l => (fuel, 2)


/-- Object contents after the opening brace. -/
def parseMembers : Nat → List Char → Option (Json × List Char)
  | 0, _ => none
  | fuel + 1, l => parseMembersTok fuel (skipWs l)
termination_by fuel l => (fuel, 1)


/-- Object contents dispatch: a closing brace, or a first member and the
continuation. -/
def parseMembersTok : Nat → List Char → Option (Json × List Char)
  | _, [] => none
  | fuel, c :: cs =>
      if c = '}' then some (Json.obj JsonObj.nil, cs)
      else if c = '"' then
        match parseStringBody cs with
        | none => none
        | some (k, r2) =>
            match skipWs r2 with
            | ':' :: r3 =>
                match parseValue fuel r3 with
                | none => none
                | some (v, r4) =>
                    match parseMembersRest fuel r4 with
                    | none => none
                    | some (ms, r5) =>
                        some (Json.obj (JsonObj.cons (String.mk k) v ms), r5)
            | _ => none
      else none
termination_by fuel l => (fuel, 2)


/-- Object continuation: a comma and another member, or the closing
brace. -/
def parseMembersRest : Nat → List Char → Option (JsonObj × List Char)
  | 0, _ => none
  | fuel + 1, l => parseMembersRestTok fuel (skipWs l)
termination_by fuel l => (fuel, 1)


/-- Object continuation dispatch. -/
def parseMembersRestTok : Nat → List Char → Option (JsonObj × List Char)
  | _, [] => none
  | fuel, c :: cs =>
      if c = '}' then some (JsonObj.nil, cs)
      else if c = ',' then
        match skipWs cs with
        | '"' :: r1 =>
            match parseStringBody r1 with
            | none => none
            | some (k, r2) =>
                match skipWs r2 with
                | ':' :: r3 =>
                    match parseValue fuel r3 with
                    | none => none
                    | some (v, r4) =>
                        match parseMembersRest fuel r4 with
                        | none => none
                        | some (ms, r5) =>
                            some (JsonObj.cons (String.mk k) v ms, r5)
                | _ => none
        | _ => none
      else none
termination_by fuel l => (fuel, 2)

end

/-- Model of JSON.parse on a whole text: parse one value with fuel the
length of the text, and require only trailing whitespace after it. -/
def jsonParse (s : String) : Option Json :=
  match parseValue (s.data.length + 1) s.data with
  | some (j, rest) => if skipWs rest = [] then some j else none
  | none => none

/-- Model of JSON.stringify on a whole value. -/
def jsonStringify (j : Json) : String :=
  String.mk (printJson j)

theorem expectChars_append (ps rest : List Char) :
    expectChars ps (ps ++ rest) = some rest := by
  induction ps with
  | nil => rfl
  | cons p ps ih => simp [expectChars, ih]

theorem skipWs_not_ws (c : Char) (l : List Char) (h : isWsCh c = false) :
    skipWs (c :: l) = c :: l := by
  simp [skipWs, h]

/-- Whether a list starts with a decimal digit. -/
def headIsDigit : List Char → Bool
  | [] => false
  | c :: _ => isDigitCh c

theorem takeDigits_append (ds rest : List Char)
    (hds : ∀ c ∈ ds, isDigitCh c = true) (hr : headIsDigit rest = false) :
    takeDigits (ds ++ rest) = (ds, rest) := by
  induction ds with
  | nil =>
      cases rest with
      | nil => rfl
      | cons r rs =>
          simp only [headIsDigit] at hr
          simp [takeDigits, hr]
  | cons c cs ih =>
      have hc : isDigitCh c = true := hds c (by simp)
      have hcs : ∀ x ∈ cs, isDigitCh x = true := fun x hx => hds x (by simp [hx])
      simp [takeDigits, hc, ih hcs]

theorem digitsVal_nil (acc : Nat) : digitsVal acc [] = acc := rfl

theorem digitsVal_cons (acc : Nat) (c : Char) (cs : List Char) :
    digitsVal acc (c :: cs) = digitsVal (acc * 10 + (c.toNat - 48)) cs := rfl

theorem digitsVal_append (l1 l2 : List Char) (acc : Nat) :
    digitsVal acc (l1 ++ l2) = digitsVal (digitsVal acc l1) l2 := by
  induction l1 generalizing acc with
  | nil => rfl
  | cons c cs ih =>
      rw [List.cons_append, digitsVal_cons, digitsVal_cons, ih]

theorem digitsVal_natToChars (n : Nat) :
    ∀ acc, digitsVal acc (natToChars n)
      = acc * 10 ^ (natToChars n).length + n := by
  induction n using Nat.strong_induction_on with
  | _ n ih =>
      intro acc
      rw [natToChars]
      split
      · next h =>
          rw [digitsVal_cons, toNat_digitChar n h, digitsVal_nil]
          simp only [List.length_cons, List.length_nil, Nat.zero_add, pow_one]
          omega
      · next h =>
          rw [digitsVal_append, ih (n / 10) (by omega) acc, digitsVal_cons,
            toNat_digitChar (n % 10) (by omega), digitsVal_nil]
          simp only [List.length_append, List.length_cons, List.length_nil,
            Nat.zero_add]
          rw [pow_succ, ← mul_assoc]
          generalize acc * (10 : Nat) ^ (natToChars (n / 10)).length = P
          omega

theorem parseNat_natToChars (n : Nat) (rest : List Char)
    (hr : headIsDigit rest = false) :
    parseNat (natToChars n ++ rest) = some (n, rest) := by
  rw [parseNat, takeDigits_append _ _ (natToChars_all_digits n) hr]
  obtain ⟨d, ds, hds, _⟩ := natToChars_head n
  rw [hds]
  show some (digitsVal 0 (d :: ds), rest) = some (n, rest)
  rw [← hds, digitsVal_natToChars n 0]
  simp

theorem headIsDigit_cons (c : Char) (l : List Char) :
    headIsDigit (c :: l) = isDigitCh c := rfl

theorem headNumCont_false (c : Char) (l : List Char)
    (h : headNumCont (c :: l) = false) :
    isDigitCh c = false ∧ ¬ c = '.' ∧ ¬ c = 'e' ∧ ¬ c = 'E' := by
  simp only [headNumCont, Bool.or_eq_false_iff, decide_eq_false_iff_not] at h
  exact ⟨h.1.1.1, h.1.1.2, h.1.2, h.2⟩

theorem headIsDigit_of_numCont (rest : List Char)
    (h : headNumCont rest = false) : headIsDigit rest = false := by
  cases rest with
  | nil => rfl
  | cons c cs =>
      rw [headIsDigit_cons]
      exact (headNumCont_false c cs h).1

theorem parseFrac_stop (ip : Nat) (rest : List Char)
    (h : headNumCont rest = false) :
    parseFrac ip rest = some ((ip, 0), rest) := by
  cases rest with
  | nil => rfl
  | cons c cs =>
      rw [parseFrac, if_neg (headNumCont_false c cs h).2.1]

theorem parseExp_stop (m k : Nat) (rest : List Char)
    (h : headNumCont rest = false) :
    parseExp m k rest = some ((m, k), rest) := by
  cases rest with
  | nil => rfl
  | cons c cs =>
      rw [parseExp, if_neg (headNumCont_false c cs h).2.2.1,
        if_neg (headNumCont_false c cs h).2.2.2]

theorem digitsVal_eq_acc (acc : Nat) (l : List Char) :
    digitsVal acc l = acc * 10 ^ l.length + digitsVal 0 l := by
  induction l generalizing acc with
  | nil => simp [digitsVal_nil]
  | cons c cs ih =>
      rw [digitsVal_cons, digitsVal_cons, ih, ih (0 * 10 + (c.toNat - 48))]
      simp only [List.length_cons]
      rw [pow_succ]
      ring

theorem digitsVal_pad (z : Nat) (ds : List Char) :
    digitsVal 0 (List.replicate z '0' ++ ds) = digitsVal 0 ds := by
  induction z with
  | zero => rfl
  | succ z ih =>
      rw [List.replicate_succ, List.cons_append, digitsVal_cons]
      exact ih

theorem padDigits_length (ds : List Char) (k : Nat) :
    (padDigits ds k).length = max (k + 1) ds.length := by
  simp [padDigits]
  omega

theorem padDigits_all_digits (ds : List Char) (k : Nat)
    (h : ∀ c ∈ ds, isDigitCh c = true) :
    ∀ c ∈ padDigits ds k, isDigitCh c = true := by
  intro c hc
  rw [padDigits, List.mem_append] at hc
  rcases hc with hc | hc
  · rw [List.eq_of_mem_replicate hc]
    decide
  · exact h c hc

theorem take_split_head (L : List Char) (k : Nat) (hlen : k + 1 ≤ L.length)
    (h : ∀ c ∈ L, isDigitCh c = true) :
    ∃ d tl,
      List.take (L.length - k) L ++ '.' :: List.drop (L.length - k) L
        = d :: tl ∧ isDigitCh d = true := by
  cases L with
  | nil => simp at hlen
  | cons a b =>
      have hstep : (a :: b).length - k = ((a :: b).length - k - 1) + 1 := by
        simp only [List.length_cons] at hlen ⊢
        omega
      rw [hstep, List.take_succ_cons, List.cons_append]
      exact ⟨a, _, rfl, h a (by simp)⟩

/-- The head of the decimal rendering of a magnitude is a digit. -/
theorem decSplit_head (ds : List Char) (k : Nat)
    (h : ∀ c ∈ ds, isDigitCh c = true) :
    ∃ d tl, decSplit ds k = d :: tl ∧ isDigitCh d = true := by
  rw [decSplit]
  exact take_split_head (padDigits ds k) k
    (by rw [padDigits_length]; omega) (padDigits_all_digits ds k h)

theorem parseNat_digits (ds rest : List Char) (hne : ds ≠ [])
    (hds : ∀ c ∈ ds, isDigitCh c = true) (hr : headIsDigit rest = false) :
    parseNat (ds ++ rest) = some (digitsVal 0 ds, rest) := by
  rw [parseNat, takeDigits_append ds rest hds hr]
  cases ds with
  | nil => exact absurd rfl hne
  | cons d tl => rfl

theorem parseFrac_frac (ip : Nat) (ds rest : List Char) (hne : ds ≠ [])
    (hds : ∀ c ∈ ds, isDigitCh c = true) (hr : headIsDigit rest = false) :
    parseFrac ip ('.' :: (ds ++ rest))
      = some ((ip * 10 ^ ds.length + digitsVal 0 ds, ds.length), rest) := by
  rw [parseFrac, if_pos rfl, takeDigits_append ds rest hds hr]
  cases ds with
  | nil => exact absurd rfl hne
  | cons d tl => rfl

theorem parseNumber_cons (c : Char) (cs : List Char) :
    parseNumber (c :: cs)
      = if c = '-' then parseNumAbs true cs
        else parseNumAbs false (c :: cs) := rfl

theorem parseNumAbs_digits (neg : Bool) (m : Nat) (rest : List Char)
    (hr : headNumCont rest = false) :
    parseNumAbs neg (natToChars m ++ rest) = some (mkNum neg m 0, rest) := by
  simp only [parseNumAbs,
    parseNat_natToChars m rest (headIsDigit_of_numCont rest hr),
    parseFrac_stop m rest hr, parseExp_stop m 0 rest hr]

theorem parseNumAbs_dec (neg : Bool) (m k : Nat) (rest : List Char)
    (hr : headNumCont rest = false) :
    parseNumAbs neg (decSplit (natToChars m) (k + 1) ++ rest)
      = some (mkNum neg m (k + 1), rest) := by
  rw [decSplit]
  set L := padDigits (natToChars m) (k + 1) with hL
  set t := L.length - (k + 1) with ht
  have hdigL : ∀ c ∈ L, isDigitCh c = true := by
    rw [hL]
    exact padDigits_all_digits _ _ (natToChars_all_digits m)
  have hlenL : k + 2 ≤ L.length := by
    rw [hL, padDigits_length]
    omega
  have hvalL : digitsVal 0 L = m := by
    rw [hL, padDigits, digitsVal_pad, digitsVal_natToChars m 0]
    simp
  have htk : (List.drop t L).length = k + 1 := by
    rw [List.length_drop]
    omega
  have hdis : ∀ c ∈ List.take t L, isDigitCh c = true :=
    fun c hc => hdigL c (List.take_subset t L hc)
  have hdrs : ∀ c ∈ List.drop t L, isDigitCh c = true :=
    fun c hc => hdigL c (List.drop_subset t L hc)
  have htne : List.take t L ≠ [] := by
    intro hnil
    have h0 : (List.take t L).length = 0 := by rw [hnil]; rfl
    rw [List.length_take] at h0
    omega
  have hdne : List.drop t L ≠ [] := by
    intro hnil
    rw [hnil] at htk
    simp at htk
  have h1 : digitsVal 0 (List.take t L) * 10 ^ (List.drop t L).length
      + digitsVal 0 (List.drop t L) = m := by
    have h2 : digitsVal 0 (List.take t L ++ List.drop t L) = m := by
      rw [List.take_append_drop]
      exact hvalL
    rw [digitsVal_append, digitsVal_eq_acc] at h2
    exact h2
  rw [htk] at h1
  have hdot : headIsDigit ('.' :: (List.drop t L ++ rest)) = false := by
    rw [headIsDigit_cons]
    decide
  have hrest := headIsDigit_of_numCont rest hr
  rw [List.append_assoc, List.cons_append]
  simp only [parseNumAbs,
    parseNat_digits (List.take t L) ('.' :: (List.drop t L ++ rest)) htne hdis hdot,
    parseFrac_frac (digitsVal 0 (List.take t L)) (List.drop t L) rest hdne hdrs hrest,
    htk, parseExp_stop _ _ _ hr, h1]

/-- The first character of a printed integer: a digit or a minus sign. -/
theorem intToChars_head (n : Int) :
    ∃ d ds, intToChars n = d :: ds
      ∧ ((48 ≤ d.toNat ∧ d.toNat ≤ 57) ∨ d.toNat = 45) := by
  rw [intToChars]
  split
  · exact ⟨'-', _, rfl, Or.inr rfl⟩
  · obtain ⟨d, ds, hds, hdig⟩ := natToChars_head n.toNat
    exact ⟨d, ds, hds, Or.inl ((isDigitCh_iff d).mp hdig)⟩

/-- The first character of a printed number: a digit or a minus sign. -/
theorem numToChars_head (n : JsNum) :
    ∃ d ds, numToChars n = d :: ds
      ∧ ((48 ≤ d.toNat ∧ d.toNat ≤ 57) ∨ d.toNat = 45) := by
  rw [numToChars]
  split
  · exact intToChars_head n.mant
  · split
    · obtain ⟨d, tl, hsp, hdig⟩ :=
        decSplit_head (natToChars n.mant.natAbs) n.scale
          (natToChars_all_digits _)
      rw [List.singleton_append]
      exact ⟨'-', _, rfl, Or.inr rfl⟩
    · obtain ⟨d, tl, hsp, hdig⟩ :=
        decSplit_head (natToChars n.mant.natAbs) n.scale
          (natToChars_all_digits _)
      rw [List.nil_append, hsp]
      exact ⟨d, tl, rfl, Or.inl ((isDigitCh_iff d).mp hdig)⟩

/-- Parsing a printed number recovers the number, whenever the remainder
cannot extend it. -/
theorem parseNumber_numToChars (n : JsNum) (rest : List Char)
    (hr : headNumCont rest = false) :
    parseNumber (numToChars n ++ rest) = some (n, rest) := by
  obtain ⟨m, k, hnorm⟩ := n
  simp only [numToChars]
  cases k with
  | zero =>
      rw [if_pos rfl, intToChars]
      split
      · next hneg =>
          rw [List.cons_append, parseNumber_cons, if_pos rfl,
            parseNumAbs_digits true m.natAbs rest hr]
          have he : mkNum true m.natAbs 0 = (⟨m, 0, hnorm⟩ : JsNum) := by
            refine jsNum_ext _ _ ?_ rfl
            show -((m.natAbs : Int)) = m
            omega
          rw [he]
      · next hpos =>
          obtain ⟨d, ds, hds, hdig⟩ := natToChars_head m.toNat
          rw [hds, List.cons_append, parseNumber_cons]
          have h45 : ('-' : Char).toNat = 45 := rfl
          have hd : ¬ d = '-' := by
            rw [char_eq_iff, h45, isDigitCh_iff] at *
            omega
          rw [if_neg hd, ← List.cons_append, ← hds,
            parseNumAbs_digits false m.toNat rest hr]
          have he : mkNum false m.toNat 0 = (⟨m, 0, hnorm⟩ : JsNum) := by
            refine jsNum_ext _ _ ?_ rfl
            show ((m.toNat : Int)) = m
            omega
          rw [he]
  | succ k =>
      rw [if_neg (Nat.succ_ne_zero k)]
      have hm10 : m.natAbs % 10 ≠ 0 := by
        rcases hnorm with h | h
        · exact absurd h (Nat.succ_ne_zero k)
        · exact h
      split
      · next hneg =>
          rw [List.singleton_append, List.cons_append, parseNumber_cons,
            if_pos rfl, parseNumAbs_dec true m.natAbs k rest hr]
          have he : mkNum true m.natAbs (k + 1)
              = (⟨m, k + 1, hnorm⟩ : JsNum) := by
            refine jsNum_ext _ _ ?_ ?_
            · show -(((normNum m.natAbs (k + 1)).1 : Int)) = m
              rw [normNum_eq_self _ _ hm10]
              omega
            · show (normNum m.natAbs (k + 1)).2 = k + 1
              rw [normNum_eq_self _ _ hm10]
          rw [he]
      · next hpos =>
          obtain ⟨d, tl, hsp, hdig⟩ :=
            decSplit_head (natToChars m.natAbs) (k + 1)
              (natToChars_all_digits _)
          rw [List.nil_append, hsp, List.cons_append, parseNumber_cons]
          have h45 : ('-' : Char).toNat = 45 := rfl
          have hd : ¬ d = '-' := by
            rw [char_eq_iff, h45, isDigitCh_iff] at *
            omega
          rw [if_neg hd, ← List.cons_append, ← hsp,
            parseNumAbs_dec false m.natAbs k rest hr]
          have he : mkNum false m.natAbs (k + 1)
              = (⟨m, k + 1, hnorm⟩ : JsNum) := by
            refine jsNum_ext _ _ ?_ ?_
            · show (((normNum m.natAbs (k + 1)).1 : Int)) = m
              rw [normNum_eq_self _ _ hm10]
              omega
            · show (normNum m.natAbs (k + 1)).2 = k + 1
              rw [normNum_eq_self _ _ hm10]
          rw [he]

theorem psb_quote (cs : List Char) : parseStringBody ('"' :: cs) = some ([], cs) := by
  rw [parseStringBody.eq_def]
  rfl

theorem psb_esc_quote (cs : List Char) :
    parseStringBody ('\\' :: '"' :: cs)
      = (parseStringBody cs).map fun p => ('"' :: p.1, p.2) := by
  rw [parseStringBody.eq_def]
  rfl

theorem psb_esc_u (h1 h2 h3 h4 : Char) (cs : List Char) :
    parseStringBody ('\\' :: 'u' :: h1 :: h2 :: h3 :: h4 :: cs)
      = (match hexCharVal h1, hexCharVal h2, hexCharVal h3, hexCharVal h4 with
          | some a, some b, some c2, some d =>
              (mkCharOpt (a * 4096 + b * 256 + c2 * 16 + d)).bind fun ch =>
                (parseStringBody cs).map fun p => (ch :: p.1, p.2)
          | _, _, _, _ => none) := by
  rw [parseStringBody.eq_def]
  rfl

theorem psb_plain (c : Char) (cs : List Char) (hq : ¬ c = '"') (hb : ¬ c = '\\') :
    parseStringBody (c :: cs)
      = (parseStringBody cs).map fun p => (c :: p.1, p.2) := by
  rw [parseStringBody.eq_def]
  simp only [if_neg hq, if_neg hb]

theorem psb_esc_backslash (cs : List Char) :
    parseStringBody ('\\' :: '\\' :: cs)
      = (parseStringBody cs).map fun p => ('\\' :: p.1, p.2) := by
  rw [parseStringBody.eq_def]
  rfl

theorem psb_esc_b (cs : List Char) :
    parseStringBody ('\\' :: 'b' :: cs)
      = (parseStringBody cs).map fun p => ('\x08' :: p.1, p.2) := by
  rw [parseStringBody.eq_def]
  rfl

theorem psb_esc_f (cs : List Char) :
    parseStringBody ('\\' :: 'f' :: cs)
      = (parseStringBody cs).map fun p => ('\x0c' :: p.1, p.2) := by
  rw [parseStringBody.eq_def]
  rfl

theorem psb_esc_n (cs : List Char) :
    parseStringBody ('\\' :: 'n' :: cs)
      = (parseStringBody cs).map fun p => ('\n' :: p.1, p.2) := by
  rw [parseStringBody.eq_def]
  rfl

theorem psb_esc_r (cs : List Char) :
    parseStringBody ('\\' :: 'r' :: cs)
      = (parseStringBody cs).map fun p => ('\r' :: p.1, p.2) := by
  rw [parseStringBody.eq_def]
  rfl

theorem psb_esc_t (cs : List Char) :
    parseStringBody ('\\' :: 't' :: cs)
      = (parseStringBody cs).map fun p => ('\t' :: p.1, p.2) := by
  rw [parseStringBody.eq_def]
  rfl

theorem char_range_iff (lo hi c : Char) :
    (decide (lo ≤ c) && decide (c ≤ hi)) = true
      ↔ lo.toNat ≤ c.toNat ∧ c.toNat ≤ hi.toNat := by
  simp only [Bool.and_eq_true, decide_eq_true_eq]
  exact ⟨fun ⟨a, b⟩ => ⟨char_le_iff.mp a, char_le_iff.mp b⟩,
    fun ⟨a, b⟩ => ⟨char_le_iff.mpr a, char_le_iff.mpr b⟩⟩

theorem toNat_hexDigitCharL_lt (d : Nat) (h : d < 10) :
    (hexDigitCharL d).toNat = 48 + d := by
  rw [hexDigitCharL, if_pos h]
  exact toNat_digitChar d h

theorem toNat_hexDigitCharL_ge (d : Nat) (h1 : 10 ≤ d) (h2 : d < 16) :
    (hexDigitCharL d).toNat = 87 + d := by
  rw [hexDigitCharL, if_neg (by omega)]
  exact toNat_ofNat_valid _ (by omega)

theorem hexCharVal_hexDigitCharL (d : Nat) (h : d < 16) :
    hexCharVal (hexDigitCharL d) = some d := by
  by_cases h10 : d < 10
  · have ht := toNat_hexDigitCharL_lt d h10
    rw [hexCharVal, if_pos (by rw [isDigitCh_iff, ht]; omega), ht]
    congr 1
    omega
  · have ht := toNat_hexDigitCharL_ge d (by omega) h
    have hd1 : ¬ (isDigitCh (hexDigitCharL d) = true) := by
      rw [isDigitCh_iff, ht]; omega
    have hd2 : ¬ ((decide ('A' ≤ hexDigitCharL d)
        && decide (hexDigitCharL d ≤ 'F')) = true) := by
      rw [char_range_iff, ht]
      have e1 : ('A' : Char).toNat = 65 := rfl
      have e2 : ('F' : Char).toNat = 70 := rfl
      rw [e1, e2]; omega
    have hd3 : (decide ('a' ≤ hexDigitCharL d)
        && decide (hexDigitCharL d ≤ 'f')) = true := by
      rw [char_range_iff, ht]
      have e1 : ('a' : Char).toNat = 97 := rfl
      have e2 : ('f' : Char).toNat = 102 := rfl
      rw [e1, e2]; omega
    rw [hexCharVal, if_neg hd1, if_neg hd2, if_pos hd3, ht]
    congr 1
    omega

theorem hexCharVal_zero : hexCharVal '0' = some 0 := rfl

theorem mkCharOpt_toNat (c : Char) : mkCharOpt c.toNat = some c := by
  rw [mkCharOpt, dif_pos (show c.toNat.isValidChar from c.valid),
    Char.ofNat_toNat]

theorem parseStringBody_escChars (l rest : List Char) :
    parseStringBody (escChars l ++ '"' :: rest) = some (l, rest) := by
  induction l with
  | nil => exact psb_quote rest
  | cons c cs ih =>
      show parseStringBody ((escapeChar c ++ escChars cs) ++ '"' :: rest) = _
      rw [List.append_assoc, escapeChar]
      split_ifs with h1 h2 h3 h4 h5 h6 h7 h8
      · subst h1
        simp only [List.cons_append, List.nil_append]
        rw [psb_esc_quote, ih]
        rfl
      · subst h2
        simp only [List.cons_append, List.nil_append]
        rw [psb_esc_backslash, ih]
        rfl
      · subst h3
        simp only [List.cons_append, List.nil_append]
        rw [psb_esc_b, ih]
        rfl
      · subst h4
        simp only [List.cons_append, List.nil_append]
        rw [psb_esc_f, ih]
        rfl
      · subst h5
        simp only [List.cons_append, List.nil_append]
        rw [psb_esc_n, ih]
        rfl
      · subst h6
        simp only [List.cons_append, List.nil_append]
        rw [psb_esc_r, ih]
        rfl
      · subst h7
        simp only [List.cons_append, List.nil_append]
        rw [psb_esc_t, ih]
        rfl
      · simp only [List.cons_append, List.nil_append]
        rw [psb_esc_u, hexCharVal_zero,
          hexCharVal_hexDigitCharL (c.toNat / 16) (by omega),
          hexCharVal_hexDigitCharL (c.toNat % 16) (by omega)]
        have hm : 0 * 4096 + 0 * 256 + c.toNat / 16 * 16 + c.toNat % 16
            = c.toNat := by omega
        show (mkCharOpt (0 * 4096 + 0 * 256 + c.toNat / 16 * 16 + c.toNat % 16)).bind
            (fun ch => Option.map (fun p => (ch :: p.1, p.2))
              (parseStringBody (escChars cs ++ '"' :: rest)))
          = some (c :: cs, rest)
        rw [hm, mkCharOpt_toNat, ih]
        rfl
      · simp only [List.cons_append, List.nil_append]
        rw [psb_plain c _ h1 h2, ih]
        rfl

mutual

/-- Fuel needed by the parser for a value printed by printJson. -/
def needV : Json → Nat
  | .null => 1
  | .bool _ => 1
  | .num _ => 1
  | .str _ => 1
  | .arr l => needL l + 1
  | .obj ms => needM ms + 1

/-- Fuel needed for array contents. -/
def needL : JsonList → Nat
  | .nil => 1
  | .cons x xs => max (needV x) (needS xs) + 1

/-- Fuel needed for an array continuation. -/
def needS : JsonList → Nat
  | .nil => 1
  | .cons x xs => max (needV x) (needS xs) + 1

/-- Fuel needed for object contents. -/
def needM : JsonObj → Nat
  | .nil => 1
  | .cons _ v ms => max (needV v) (needMS ms) + 1

/-- Fuel needed for an object continuation. -/
def needMS : JsonObj → Nat
  | .nil => 1
  | .cons _ v ms => max (needV v) (needMS ms) + 1

end

theorem needV_pos (j : Json) : 1 ≤ needV j := by
  cases j <;> simp [needV]

theorem needL_pos (l : JsonList) : 1 ≤ needL l := by
  cases l <;> simp [needL]

theorem needS_pos (l : JsonList) : 1 ≤ needS l := by
  cases l <;> simp [needS]

theorem needM_pos (m : JsonObj) : 1 ≤ needM m := by
  cases m <;> simp [needM]

theorem needMS_pos (m : JsonObj) : 1 ≤ needMS m := by
  cases m <;> simp [needMS]

theorem isWsCh_false_of_facts (c : Char) (h1 : ¬ c = ' ') (h2 : ¬ c = '\t')
    (h3 : ¬ c = '\n') (h4 : ¬ c = '\r') : isWsCh c = false := by
  simp [isWsCh, h1, h2, h3, h4]

/-- Facts about a character that starts a printed number: it is a digit or
a minus sign, so it is no whitespace, no keyword initial and no closing
bracket. -/
theorem numHead_facts (d : Char)
    (hd : (48 ≤ d.toNat ∧ d.toNat ≤ 57) ∨ d.toNat = 45) :
    isWsCh d = false ∧ ¬ d = 'n' ∧ ¬ d = 't' ∧ ¬ d = 'f' ∧ ¬ d = '"'
      ∧ ¬ d = '[' ∧ ¬ d = '{' ∧ ¬ d = ']' := by
  refine ⟨isWsCh_false_of_facts d ?_ ?_ ?_ ?_, ?_, ?_, ?_, ?_, ?_, ?_, ?_⟩ <;>
    · intro hh
      rw [hh] at hd
      revert hd
      decide

/-- The first character of a printed value: never whitespace and never a
closing bracket. -/
theorem printJson_head (j : Json) :
    ∃ c cs, printJson j = c :: cs ∧ isWsCh c = false ∧ ¬ c = ']' := by
  cases j with
  | null => exact ⟨'n', _, rfl, by decide, by decide⟩
  | bool b =>
      cases b
      · exact ⟨'f', _, rfl, by decide, by decide⟩
      · exact ⟨'t', _, rfl, by decide, by decide⟩
  | num n =>
      show ∃ c cs, numToChars n = c :: cs ∧ _
      obtain ⟨d, ds, hds, hfacts⟩ := numToChars_head n
      obtain ⟨hw, _, _, _, _, _, _, hb⟩ := numHead_facts d hfacts
      exact ⟨d, ds, hds, hw, hb⟩
  | str s => exact ⟨'"', _, rfl, by decide, by decide⟩
  | arr l => exact ⟨'[', _, rfl, by decide, by decide⟩
  | obj ms => exact ⟨'{', _, rfl, by decide, by decide⟩

theorem printJson_ne_nil (j : Json) : printJson j ≠ [] := by
  obtain ⟨c, cs, h, _, _⟩ := printJson_head j
  rw [h]
  simp

theorem headNumCont_sep (xs : JsonList) (r : List Char) :
    headNumCont (printListSep xs ++ ']' :: r) = false := by
  cases xs <;> simp [printListSep, headNumCont] <;> decide

theorem headNumCont_msep (ms : JsonObj) (r : List Char) :
    headNumCont (printMembersSep ms ++ '}' :: r) = false := by
  cases ms <;> simp [printMembersSep, headNumCont] <;> decide

mutual

/-- Completeness of the JSON parser on printed values: parsing a printed
value consumes exactly the printed text, for any fuel at least the value's
need and any remainder not starting with a digit. -/
theorem parseValue_print (j : Json) (rest : List Char) (fuel : Nat)
    (hf : needV j ≤ fuel) (hr : headNumCont rest = false) :
    parseValue fuel (printJson j ++ rest) = some (j, rest) := by
  cases fuel with
  | zero => exact absurd hf (by have := needV_pos j; omega)
  | succ f =>
      rw [parseValue]
      cases j with
      | null =>
          have he := expectChars_append ['u', 'l', 'l'] rest
          simp only [List.cons_append, List.nil_append] at he
          simp only [printJson, nullChars, List.cons_append, List.nil_append]
          rw [skipWs_not_ws _ _ (by decide), parseValueTok, if_pos rfl, he]
          rfl
      | bool b =>
          cases b
          · have he := expectChars_append ['a', 'l', 's', 'e'] rest
            simp only [List.cons_append, List.nil_append] at he
            simp only [printJson, falseChars, List.cons_append, List.nil_append]
            rw [skipWs_not_ws _ _ (by decide), parseValueTok,
              if_neg (by decide), if_neg (by decide), if_pos rfl, he]
            rfl
          · have he := expectChars_append ['r', 'u', 'e'] rest
            simp only [List.cons_append, List.nil_append] at he
            simp only [printJson, trueChars, List.cons_append, List.nil_append]
            rw [skipWs_not_ws _ _ (by decide), parseValueTok,
              if_neg (by decide), if_pos rfl, he]
            rfl
      | num n =>
          show parseValueTok f (skipWs (numToChars n ++ rest)) = _
          obtain ⟨d, ds, hds, hfacts⟩ := numToChars_head n
          obtain ⟨hw, k1, k2, k3, k4, k5, k6, _⟩ := numHead_facts d hfacts
          rw [hds]
          simp only [List.cons_append]
          rw [skipWs_not_ws _ _ hw, parseValueTok, if_neg k1, if_neg k2,
            if_neg k3, if_neg k4, if_neg k5, if_neg k6,
            ← List.cons_append, ← hds, parseNumber_numToChars n rest hr]
          rfl
      | str s =>
          show parseValueTok f (skipWs (printString s ++ rest)) = _
          rw [printString]
          simp only [List.cons_append, List.append_assoc,
            List.singleton_append]
          rw [skipWs_not_ws _ _ (by decide), parseValueTok,
            if_neg (by decide), if_neg (by decide), if_neg (by decide),
            if_pos rfl, parseStringBody_escChars]
          rfl
      | arr l =>
          show parseValueTok f (skipWs (('[' :: (printList l ++ [']'])) ++ rest)) = _
          simp only [List.cons_append, List.append_assoc,
            List.singleton_append]
          rw [skipWs_not_ws _ _ (by decide), parseValueTok,
            if_neg (by decide), if_neg (by decide), if_neg (by decide),
            if_neg (by decide), if_pos rfl]
          have hf2 : needL l ≤ f := by
            simp only [needV] at hf
            omega
          exact parseItems_print l rest f hf2
      | obj ms =>
          show parseValueTok f (skipWs (('{' :: (printMembers ms ++ ['}'])) ++ rest)) = _
          simp only [List.cons_append, List.append_assoc,
            List.singleton_append]
          rw [skipWs_not_ws _ _ (by decide), parseValueTok,
            if_neg (by decide), if_neg (by decide), if_neg (by decide),
            if_neg (by decide), if_neg (by decide), if_pos rfl]
          have hf2 : needM ms ≤ f := by
            simp only [needV] at hf
            omega
          exact parseMembers_print ms rest f hf2
termination_by sizeOf j


/-- Completeness for printed array contents. -/
theorem parseItems_print (l : JsonList) (rest : List Char) (fuel : Nat)
    (hf : needL l ≤ fuel) :
    parseArrayItems fuel (printList l ++ ']' :: rest)
      = some (Json.arr l, rest) := by
  cases fuel with
  | zero => exact absurd hf (by have := needL_pos l; omega)
  | succ f =>
      rw [parseArrayItems]
      cases l with
      | nil =>
          show parseItemsTok f (skipWs (']' :: rest)) = _
          rw [skipWs_not_ws _ _ (by decide), parseItemsTok, if_pos rfl]
      | cons x xs =>
          show parseItemsTok f
              (skipWs ((printJson x ++ printListSep xs) ++ ']' :: rest)) = _
          obtain ⟨c, cs, hx, hws, hnb⟩ := printJson_head x
          have hfx : needV x ≤ f := by
            simp only [needL] at hf
            omega
          have hfs : needS xs ≤ f := by
            simp only [needL] at hf
            omega
          rw [List.append_assoc, hx]
          simp only [List.cons_append]
          rw [skipWs_not_ws _ _ hws, parseItemsTok, if_neg hnb,
            ← List.cons_append, ← hx]
          simp only [parseValue_print x _ f hfx (headNumCont_sep xs rest),
            parseRest_print xs rest f hfs]
termination_by sizeOf l


/-- Completeness for printed array continuations. -/
theorem parseRest_print (xs : JsonList) (rest : List Char) (fuel : Nat)
    (hf : needS xs ≤ fuel) :
    parseArrayRest fuel (printListSep xs ++ ']' :: rest)
      = some (xs, rest) := by
  cases fuel with
  | zero => exact absurd hf (by have := needS_pos xs; omega)
  | succ f =>
      rw [parseArrayRest]
      cases xs with
      | nil =>
          show parseRestTok f (skipWs (']' :: rest)) = _
          rw [skipWs_not_ws _ _ (by decide), parseRestTok, if_pos rfl]
      | cons x xs2 =>
          show parseRestTok f
              (skipWs (',' :: ((printJson x ++ printListSep xs2) ++ ']' :: rest))) = _
          have hfx : needV x ≤ f := by
            simp only [needS] at hf
            omega
          have hfs : needS xs2 ≤ f := by
            simp only [needS] at hf
            omega
          rw [skipWs_not_ws _ _ (by decide), parseRestTok,
            if_neg (by decide), if_pos rfl, List.append_assoc]
          simp only [parseValue_print x _ f hfx (headNumCont_sep xs2 rest),
            parseRest_print xs2 rest f hfs]
termination_by sizeOf xs


/-- Completeness for printed object contents. -/
theorem parseMembers_print (ms : JsonObj) (rest : List Char) (fuel : Nat)
    (hf : needM ms ≤ fuel) :
    parseMembers fuel (printMembers ms ++ '}' :: rest)
      = some (Json.obj ms, rest) := by
  cases fuel with
  | zero => exact absurd hf (by have := needM_pos ms; omega)
  | succ f =>
      rw [parseMembers]
      cases ms with
      | nil =>
          show parseMembersTok f (skipWs ('}' :: rest)) = _
          rw [skipWs_not_ws _ _ (by decide), parseMembersTok, if_pos rfl]
      | cons k v ms2 =>
          show parseMembersTok f
              (skipWs ((printString k ++ ':' :: (printJson v ++ printMembersSep ms2))
                ++ '}' :: rest)) = _
          have hfv : needV v ≤ f := by
            simp only [needM] at hf
            omega
          have hfm : needMS ms2 ≤ f := by
            simp only [needM] at hf
            omega
          rw [printString]
          simp only [List.cons_append, List.append_assoc,
            List.singleton_append]
          rw [skipWs_not_ws _ _ (by decide), parseMembersTok,
            if_neg (by decide), if_pos rfl, parseStringBody_escChars]
          show (match skipWs (':' :: (printJson v ++ (printMembersSep ms2 ++ '}' :: rest))) with
            | ':' :: r3 =>
                match parseValue f r3 with
                | none => none
                | some (v2, r4) =>
                    match parseMembersRest f r4 with
                    | none => none
                    | some (ms3, r5) =>
                        some (Json.obj (JsonObj.cons (String.mk k.data) v2 ms3), r5)
            | _ => none) = some (Json.obj (JsonObj.cons k v ms2), rest)
          rw [skipWs_not_ws _ _ (by decide)]
          simp only [parseValue_print v _ f hfv (headNumCont_msep ms2 rest),
            parseMembersRest_print ms2 rest f hfm]
termination_by sizeOf ms


/-- Completeness for printed object continuations. -/
theorem parseMembersRest_print (ms : JsonObj) (rest : List Char) (fuel : Nat)
    (hf : needMS ms ≤ fuel) :
    parseMembersRest fuel (printMembersSep ms ++ '}' :: rest)
      = some (ms, rest) := by
  cases fuel with
  | zero => exact absurd hf (by have := needMS_pos ms; omega)
  | succ f =>
      rw [parseMembersRest]
      cases ms with
      | nil =>
          show parseMembersRestTok f (skipWs ('}' :: rest)) = _
          rw [skipWs_not_ws _ _ (by decide), parseMembersRestTok, if_pos rfl]
      | cons k v ms2 =>
          show parseMembersRestTok f
              (skipWs (',' :: ((printString k ++ ':' :: (printJson v ++ printMembersSep ms2))
                ++ '}' :: rest))) = _
          have hfv : needV v ≤ f := by
            simp only [needMS] at hf
            omega
          have hfm : needMS ms2 ≤ f := by
            simp only [needMS] at hf
            omega
          rw [skipWs_not_ws _ _ (by decide), parseMembersRestTok,
            if_neg (by decide), if_pos rfl, printString]
          simp only [List.cons_append, List.append_assoc,
            List.singleton_append, List.nil_append]
          rw [skipWs_not_ws _ _ (by decide)]
          show (match parseStringBody (escChars k.data
              ++ '"' :: (':' :: (printJson v ++ (printMembersSep ms2 ++ '}' :: rest)))) with
            | none => none
            | some (k2, r2) =>
                match skipWs r2 with
                | ':' :: r3 =>
                    match parseValue f r3 with
                    | none => none
                    | some (v2, r4) =>
                        match parseMembersRest f r4 with
                        | none => none
                        | some (ms3, r5) =>
                            some (JsonObj.cons (String.mk k2) v2 ms3, r5)
                | _ => none) = some (JsonObj.cons k v ms2, rest)
          rw [parseStringBody_escChars]
          show (match skipWs (':' :: (printJson v ++ (printMembersSep ms2 ++ '}' :: rest))) with
            | ':' :: r3 =>
                match parseValue f r3 with
                | none => none
                | some (v2, r4) =>
                    match parseMembersRest f r4 with
                    | none => none
                    | some (ms3, r5) =>
                        some (JsonObj.cons (String.mk k.data) v2 ms3, r5)
            | _ => none) = some (JsonObj.cons k v ms2, rest)
          rw [skipWs_not_ws _ _ (by decide)]
          simp only [parseValue_print v _ f hfv (headNumCont_msep ms2 rest),
            parseMembersRest_print ms2 rest f hfm]
termination_by sizeOf ms
end

mutual

/-- The fuel need of a value is within its printed length plus one. -/
theorem needV_le_print (j : Json) : needV j ≤ (printJson j).length + 1 := by
  cases j with
  | null => simp [needV]
  | bool b => simp [needV]
  | num n => simp [needV]
  | str s => simp [needV]
  | arr l =>
      have h := needL_le_print l
      simp only [needV, printJson, List.length_cons, List.length_append]
      simp only [List.length_cons, List.length_nil]
      omega
  | obj ms =>
      have h := needM_le_print ms
      simp only [needV, printJson, List.length_cons, List.length_append]
      simp only [List.length_cons, List.length_nil]
      omega
termination_by sizeOf j

/-- The fuel need of array contents is within their printed length plus
two. -/
theorem needL_le_print (l : JsonList) : needL l ≤ (printList l).length + 2 := by
  cases l with
  | nil => simp [needL, printList]
  | cons x xs =>
      have h1 := needV_le_print x
      have h2 := needS_le_print xs
      have h3 : 1 ≤ (printJson x).length := by
        cases hh : printJson x with
        | nil => exact absurd hh (printJson_ne_nil x)
        | cons a b => simp
      simp only [needL, printList, List.length_append]
      have hmax : max (needV x) (needS xs)
          ≤ (printJson x).length + (printListSep xs).length + 1 :=
        max_le (by omega) (by omega)
      omega
termination_by sizeOf l

/-- The fuel need of an array continuation is within its printed length
plus two. -/
theorem needS_le_print (l : JsonList) : needS l ≤ (printListSep l).length + 2 := by
  cases l with
  | nil => simp [needS, printListSep]
  | cons x xs =>
      have h1 := needV_le_print x
      have h2 := needS_le_print xs
      simp only [needS, printListSep, List.length_cons, List.length_append]
      have hmax : max (needV x) (needS xs)
          ≤ (printJson x).length + (printListSep xs).length + 2 :=
        max_le (by omega) (by omega)
      omega
termination_by sizeOf l

/-- The fuel need of object contents is within their printed length plus
two. -/
theorem needM_le_print (ms : JsonObj) : needM ms ≤ (printMembers ms).length + 2 := by
  cases ms with
  | nil => simp [needM, printMembers]
  | cons k v ms2 =>
      have h1 := needV_le_print v
      have h2 := needMS_le_print ms2
      simp only [needM, printMembers, List.length_append, List.length_cons]
      have hmax : max (needV v) (needMS ms2)
          ≤ (printString k).length + (printJson v).length
            + (printMembersSep ms2).length + 2 :=
        max_le (by omega) (by omega)
      omega
termination_by sizeOf ms

/-- The fuel need of an object continuation is within its printed length
plus two. -/
theorem needMS_le_print (ms : JsonObj) : needMS ms ≤ (printMembersSep ms).length + 2 := by
  cases ms with
  | nil => simp [needMS, printMembersSep]
  | cons k v ms2 =>
      have h1 := needV_le_print v
      have h2 := needMS_le_print ms2
      simp only [needMS, printMembersSep, List.length_append, List.length_cons]
      have hmax : max (needV v) (needMS ms2)
          ≤ (printString k).length + ((printJson v).length
            + (printMembersSep ms2).length) + 3 :=
        max_le (by omega) (by omega)
      omega
termination_by sizeOf ms

end

/-- Round trip of the modelled JSON codec: parsing a stringified value
gives the value back. -/
theorem jsonParse_stringify (j : Json) : jsonParse (jsonStringify j) = some j := by
  show (match parseValue ((printJson j).length + 1) (printJson j) with
    | some (j2, rest) => if skipWs rest = [] then some j2 else none
    | none => none) = some j
  have h := parseValue_print j [] ((printJson j).length + 1)
    (by have := needV_le_print j; omega) rfl
  rw [List.append_nil] at h
  rw [h]
  rfl

/-- UTF-8 encoding of one scalar value, as the byte sequence the xrpl
transport helpers produce. -/
def utf8EncodeChar (c : Char) : List Nat :=
  if c.toNat < 128 then [c.toNat]
  else if c.toNat < 2048 then
    [192 + c.toNat / 64, 128 + c.toNat % 64]
  else if c.toNat < 65536 then
    [224 + c.toNat / 4096, 128 + c.toNat / 64 % 64, 128 + c.toNat % 64]
  else
    [240 + c.toNat / 262144, 128 + c.toNat / 4096 % 64,
      128 + c.toNat / 64 % 64, 128 + c.toNat % 64]

/-- UTF-8 encoding of a character sequence. -/
def utf8Encode : List Char → List Nat
  | [] => []
  | c :: cs => utf8EncodeChar c ++ utf8Encode cs

/-- UTF-8 continuation byte test. -/
def isContByte (b : Nat) : Bool := decide (128 ≤ b) && decide (b < 192)

mutual

/-- UTF-8 decoding, rejecting malformed and overlong sequences. -/
def utf8Decode : List Nat → Option (List Char)
  | [] => some []
  | b1 :: bs =>
      if b1 < 128 then
        (mkCharOpt b1).bind fun c => (utf8Decode bs).map fun l => c :: l
      else if b1 < 194 then none
      else if b1 < 224 then utf8DecodeTwo b1 bs
      else if b1 < 240 then utf8DecodeThree b1 bs
      else if b1 < 248 then utf8DecodeFour b1 bs
      else none

/-- Continuation of a two-byte sequence. -/
def utf8DecodeTwo (b1 : Nat) : List Nat → Option (List Char)
  | b2 :: bs2 =>
      if isContByte b2 then
        if 128 ≤ (b1 - 192) * 64 + (b2 - 128) then
          (mkCharOpt ((b1 - 192) * 64 + (b2 - 128))).bind fun c =>
            (utf8Decode bs2).map fun l => c :: l
        else none
      else none
  | [] => none

/-- Continuation of a three-byte sequence. -/
def utf8DecodeThree (b1 : Nat) : List Nat → Option (List Char)
  | b2 :: b3 :: bs3 =>
      if isContByte b2 && isContByte b3 then
        if 2048 ≤ (b1 - 224) * 4096 + (b2 - 128) * 64 + (b3 - 128) then
          (mkCharOpt ((b1 - 224) * 4096 + (b2 - 128) * 64 + (b3 - 128))).bind fun c =>
            (utf8Decode bs3).map fun l => c :: l
        else none
      else none
  | _ => none

/-- Continuation of a four-byte sequence. -/
def utf8DecodeFour (b1 : Nat) : List Nat → Option (List Char)
  | b2 :: b3 :: b4 :: bs4 =>
      if isContByte b2 && isContByte b3 && isContByte b4 then
        if 65536 ≤ (b1 - 240) * 262144 + (b2 - 128) * 4096
            + (b3 - 128) * 64 + (b4 - 128) then
          (mkCharOpt ((b1 - 240) * 262144 + (b2 - 128) * 4096
            + (b3 - 128) * 64 + (b4 - 128))).bind fun c =>
            (utf8Decode bs4).map fun l => c :: l
        else none
      else none
  | _ => none

end

theorem char_toNat_lt (c : Char) : c.toNat < 1114112 := by
  rcases (show c.toNat.isValidChar from c.valid) with h | ⟨_, h⟩ <;> omega

theorem utf8Decode_encodeChar (c : Char) (bs : List Nat) :
    utf8Decode (utf8EncodeChar c ++ bs)
      = (utf8Decode bs).map fun l => c :: l := by
  have hlt := char_toNat_lt c
  rw [utf8EncodeChar]
  split_ifs with h1 h2 h3
  · simp only [List.cons_append, List.nil_append]
    rw [utf8Decode, if_pos h1, mkCharOpt_toNat]
    rfl
  · simp only [List.cons_append, List.nil_append]
    rw [utf8Decode, if_neg (by omega), if_neg (by omega), if_pos (by omega),
      utf8DecodeTwo,
      if_pos (by simp only [isContByte, Bool.and_eq_true, decide_eq_true_eq]; omega)]
    rw [show (192 + c.toNat / 64 - 192) * 64 + (128 + c.toNat % 64 - 128)
        = c.toNat from by omega]
    rw [if_pos (by omega), mkCharOpt_toNat]
    rfl
  · simp only [List.cons_append, List.nil_append]
    rw [utf8Decode, if_neg (by omega), if_neg (by omega), if_neg (by omega),
      if_pos (by omega), utf8DecodeThree,
      if_pos (by simp only [isContByte, Bool.and_eq_true, decide_eq_true_eq]; omega)]
    rw [show (224 + c.toNat / 4096 - 224) * 4096
        + (128 + c.toNat / 64 % 64 - 128) * 64 + (128 + c.toNat % 64 - 128)
        = c.toNat from by omega]
    rw [if_pos (by omega), mkCharOpt_toNat]
    rfl
  · simp only [List.cons_append, List.nil_append]
    rw [utf8Decode, if_neg (by omega), if_neg (by omega), if_neg (by omega),
      if_neg (by omega), if_pos (by omega), utf8DecodeFour,
      if_pos (by simp only [isContByte, Bool.and_eq_true, decide_eq_true_eq]; omega)]
    rw [show (240 + c.toNat / 262144 - 240) * 262144
        + (128 + c.toNat / 4096 % 64 - 128) * 4096
        + (128 + c.toNat / 64 % 64 - 128) * 64 + (128 + c.toNat % 64 - 128)
        = c.toNat from by omega]
    rw [if_pos (by omega), mkCharOpt_toNat]
    rfl

theorem utf8Decode_encode (l : List Char) :
    utf8Decode (utf8Encode l) = some l := by
  induction l with
  | nil => rfl
  | cons c cs ih =>
      show utf8Decode (utf8EncodeChar c ++ utf8Encode cs) = _
      rw [utf8Decode_encodeChar, ih]
      rfl

theorem utf8EncodeChar_lt_256 (c : Char) :
    ∀ b ∈ utf8EncodeChar c, b < 256 := by
  have hlt := char_toNat_lt c
  rw [utf8EncodeChar]
  split_ifs with h1 h2 h3 <;> intro b hb <;> simp at hb <;> omega

theorem utf8Encode_lt_256 (l : List Char) :
    ∀ b ∈ utf8Encode l, b < 256 := by
  induction l with
  | nil => intro b hb; simp [utf8Encode] at hb
  | cons c cs ih =>
      intro b hb
      show b < 256
      rw [show utf8Encode (c :: cs) = utf8EncodeChar c ++ utf8Encode cs
        from rfl] at hb
      rw [List.mem_append] at hb
      rcases hb with hb | hb
      · exact utf8EncodeChar_lt_256 c b hb
      · exact ih b hb

/-- Upper-case hexadecimal digit character, as in the xrpl transport
encoding. -/
def hexDigitCharU (d : Nat) : Char :=
  if d < 10 then digitChar d else Char.ofNat (55 + d)

/-- Two hexadecimal digits of a byte. -/
def byteToHex (b : Nat) : List Char :=
  [hexDigitCharU (b / 16), hexDigitCharU (b % 16)]

/-- Hexadecimal rendering of a byte sequence. -/
def bytesToHex : List Nat → List Char
  | [] => []
  | b :: bs => byteToHex b ++ bytesToHex bs

/-- Parse a hexadecimal rendering back into bytes. -/
def hexToBytes : List Char → Option (List Nat)
  | [] => some []
  | c1 :: c2 :: cs =>
      match hexCharVal c1, hexCharVal c2, hexToBytes cs with
      | some h1, some h2, some bs => some ((h1 * 16 + h2) :: bs)
      | _, _, _ => none
  | _ => none

theorem toNat_hexDigitCharU_lt (d : Nat) (h : d < 10) :
    (hexDigitCharU d).toNat = 48 + d := by
  rw [hexDigitCharU, if_pos h]
  exact toNat_digitChar d h

theorem toNat_hexDigitCharU_ge (d : Nat) (h1 : 10 ≤ d) (h2 : d < 16) :
    (hexDigitCharU d).toNat = 55 + d := by
  rw [hexDigitCharU, if_neg (by omega)]
  exact toNat_ofNat_valid _ (by omega)

theorem hexCharVal_hexDigitCharU (d : Nat) (h : d < 16) :
    hexCharVal (hexDigitCharU d) = some d := by
  by_cases h10 : d < 10
  · have ht := toNat_hexDigitCharU_lt d h10
    rw [hexCharVal, if_pos (by rw [isDigitCh_iff, ht]; omega), ht]
    congr 1
    omega
  · have ht := toNat_hexDigitCharU_ge d (by omega) h
    have hd1 : ¬ (isDigitCh (hexDigitCharU d) = true) := by
      rw [isDigitCh_iff, ht]; omega
    have hd2 : (decide ('A' ≤ hexDigitCharU d)
        && decide (hexDigitCharU d ≤ 'F')) = true := by
      rw [char_range_iff, ht]
      have e1 : ('A' : Char).toNat = 65 := rfl
      have e2 : ('F' : Char).toNat = 70 := rfl
      rw [e1, e2]; omega
    rw [hexCharVal, if_neg hd1, if_pos hd2, ht]
    congr 1
    omega

theorem hexToBytes_bytesToHex (bs : List Nat) (h : ∀ b ∈ bs, b < 256) :
    hexToBytes (bytesToHex bs) = some bs := by
  induction bs with
  | nil => rfl
  | cons b bs2 ih =>
      have hb : b < 256 := h b (by simp)
      have hbs : ∀ x ∈ bs2, x < 256 := fun x hx => h x (by simp [hx])
      show hexToBytes (byteToHex b ++ bytesToHex bs2) = _
      rw [byteToHex]
      simp only [List.cons_append, List.nil_append]
      rw [hexToBytes, hexCharVal_hexDigitCharU (b / 16) (by omega),
        hexCharVal_hexDigitCharU (b % 16) (by omega), ih hbs]
      show some ((b / 16 * 16 + b % 16) :: bs2) = some (b :: bs2)
      rw [show b / 16 * 16 + b % 16 = b from by omega]

/-- Model of the xrpl helper convertStringToHex: upper-case hexadecimal of
the UTF-8 bytes of the string. -/
def convertStringToHex (s : String) : String :=
  String.mk (bytesToHex (utf8Encode s.data))

/-- Model of the xrpl helper convertHexToString; a JavaScript throw on
malformed input is rendered as none. -/
def convertHexToString (s : String) : Option String :=
  match hexToBytes s.data with
  | none => none
  | some bs =>
      match utf8Decode bs with
      | none => none
      | some cs => some (String.mk cs)

/-- Round trip of the transport codec. -/
theorem convertHexToString_convertStringToHex (s : String) :
    convertHexToString (convertStringToHex s) = some s := by
  unfold convertHexToString convertStringToHex
  rw [show (String.mk (bytesToHex (utf8Encode s.data))).data
      = bytesToHex (utf8Encode s.data) from rfl]
  rw [hexToBytes_bytesToHex _ (utf8Encode_lt_256 s.data)]
  show (match utf8Decode (utf8Encode s.data) with
    | none => none
    | some cs => some (String.mk cs)) = some s
  rw [utf8Decode_encode]

theorem utf8EncodeChar_ne_nil (c : Char) : utf8EncodeChar c ≠ [] := by
  rw [utf8EncodeChar]
  split_ifs <;> simp

theorem utf8Encode_ne_nil (l : List Char) (h : l ≠ []) :
    utf8Encode l ≠ [] := by
  cases l with
  | nil => exact absurd rfl h
  | cons c cs =>
      show utf8EncodeChar c ++ utf8Encode cs ≠ []
      simp [utf8EncodeChar_ne_nil c]

theorem bytesToHex_ne_nil (bs : List Nat) (h : bs ≠ []) :
    bytesToHex bs ≠ [] := by
  cases bs with
  | nil => exact absurd rfl h
  | cons b bs2 =>
      show byteToHex b ++ bytesToHex bs2 ≠ []
      simp [byteToHex]

end Js

namespace XrplHelpers

/-- Shape of a ledger memo object: the three optional hex-string fields. -/
structure MemoFields where
  MemoType : Option String
  MemoFormat : Option String
  MemoData : Option String

/-- Shape of the value returned by createRWAMemo: an object with a Memo
field. -/
structure CreateMemoResult where
  Memo : MemoFields

/-- Function createRWAMemo of src/utils/xrpl_helpers.ts: wrap the
metadata in an object tagged with the type marker RWA_TOKENIZATION and the
format marker application/json, serialize it to JSON, and hex-encode the
markers and the payload. -/
def createRWAMemo (assetMetadata : Js.Json) : CreateMemoResult :=
  let memoData := Js.Json.obj (Js.JsonObj.cons "type" (Js.Json.str ("RWA_TOKENIZATION"))
    (Js.JsonObj.cons "format" (Js.Json.str ("application/json"))
      (Js.JsonObj.cons "data" assetMetadata Js.JsonObj.nil)))
  let memoJson := Js.jsonStringify memoData
  let memoHex := Js.convertStringToHex memoJson
  { Memo := { MemoType := some (Js.convertStringToHex ("RWA_TOKENIZATION"))
              MemoFormat := some (Js.convertStringToHex ("application/json"))
              MemoData := some memoHex } }

/-- JavaScript falsiness of an optional string field: missing or empty. -/
def jsOptFalsy : Option String → Bool
  | none => true
  | some s => s.data.isEmpty

/-- JavaScript property lookup on a parsed JSON object: the last binding
of the key wins. -/
def objLookup : Js.JsonObj → String → Option Js.Json
  | Js.JsonObj.nil, _ => none
  | Js.JsonObj.cons k v ms, key =>
      match objLookup ms key with
      | some v2 => some v2
      | none => if k = key then some v else none

/-- JavaScript property access on a parsed JSON value; on a non-object it
yields undefined, rendered none. -/
def getField (j : Js.Json) (key : String) : Option Js.Json :=
  match j with
  | Js.Json.obj ms => objLookup ms key
  | _ => none

/-- Function parseRWAMemo of src/utils/xrpl_helpers.ts: reject a memo
with a falsy MemoType or MemoData, hex-decode the type marker, reject a
type other than RWA_TOKENIZATION, hex-decode and JSON-parse the payload,
and return its data field.  A JavaScript throw inside the try block is
caught and returns null; both null paths are rendered none. -/
def parseRWAMemo (memo : MemoFields) : Option Js.Json :=
  if jsOptFalsy memo.MemoType || jsOptFalsy memo.MemoData then none
  else
    match memo.MemoType, memo.MemoData with
    | some mt, some md =>
        match Js.convertHexToString mt with
        | none => none
        | some memoType =>
            if ¬ memoType = "RWA_TOKENIZATION" then none
            else
              match Js.convertHexToString md with
              | none => none
              | some memoDataJson =>
                  match Js.jsonParse memoDataJson with
                  | none => none
                  | some memoData => getField memoData ("data")
    | _, _ => none


end XrplHelpers

/-- C5: for every JSON-representable metadata value m — nulls, booleans,
numbers including fractional ones such as a computed pricePerToken or a
yield rate of 6.5, strings, arrays and objects — decoding the encoded memo
recovers m exactly: parseRWAMemo(createRWAMemo(m).Memo) = m.  The encoding
serializes m inside a wrapper tagged RWA_TOKENIZATION / application/json
and hex-encodes the markers and payload; the decoder checks the marker,
reverses the hex and JSON steps and extracts the data field. -/
theorem C5_memo_roundtrip (m : Js.Json) :
    XrplHelpers.parseRWAMemo (XrplHelpers.createRWAMemo m).Memo = some m := by
  have hw : (Js.jsonStringify (Js.Json.obj (Js.JsonObj.cons "type" (Js.Json.str ("RWA_TOKENIZATION"))
      (Js.JsonObj.cons "format" (Js.Json.str ("application/json"))
        (Js.JsonObj.cons "data" m Js.JsonObj.nil))))).data ≠ [] := by
    show ('{' :: _) ≠ []
    simp
  have h1 : XrplHelpers.jsOptFalsy (some (Js.convertStringToHex ("RWA_TOKENIZATION"))) = false := by
    show (Js.bytesToHex (Js.utf8Encode ("RWA_TOKENIZATION").data)).isEmpty = false
    rw [List.isEmpty_eq_false]
    exact Js.bytesToHex_ne_nil _ (Js.utf8Encode_ne_nil _ (by simp))
  have h2 : XrplHelpers.jsOptFalsy (some (Js.convertStringToHex (Js.jsonStringify (Js.Json.obj
      (Js.JsonObj.cons "type" (Js.Json.str ("RWA_TOKENIZATION"))
        (Js.JsonObj.cons "format" (Js.Json.str ("application/json"))
          (Js.JsonObj.cons "data" m Js.JsonObj.nil))))))) = false := by
    show (Js.bytesToHex (Js.utf8Encode (Js.jsonStringify (Js.Json.obj
      (Js.JsonObj.cons "type" (Js.Json.str ("RWA_TOKENIZATION"))
        (Js.JsonObj.cons "format" (Js.Json.str ("application/json"))
          (Js.JsonObj.cons "data" m Js.JsonObj.nil))))).data)).isEmpty = false
    rw [List.isEmpty_eq_false]
    exact Js.bytesToHex_ne_nil _ (Js.utf8Encode_ne_nil _ hw)
  simp only [XrplHelpers.createRWAMemo, XrplHelpers.parseRWAMemo, h1, h2, Bool.or_self,
    Js.convertHexToString_convertStringToHex, Js.jsonParse_stringify,
    XrplHelpers.getField, XrplHelpers.objLookup]
  simp
